import Mathlib

/-!
# Verification of the zpaq snapshot engine (src/zpaq.cpp)

A shallow embedding of the data model and core algorithms of the
journaling, deduplicating archiver in `src/zpaq.cpp`, together with
theorems settling the frozen claims about its specification.

Conventions:
* machine integers are embedded as `Nat` (with explicit `% 2^32` where
  the C code relies on `unsigned` overflow) or as `Int` where the source
  uses signed types whose sign matters (`HT::csize`, `btol` results);
* byte strings are `List Nat` with each element `< 256`;
* fallible code returns `Option`/flags an error in the state.
-/

namespace Zpaq

/-! ## Byte serialization (src/zpaq.cpp `itob`, `ltob`, `btoi`, `btol`) -/

/-- `itob` (src/zpaq.cpp:1441): convert `x` to a 4 byte little-endian string. -/
def itob (x : ℕ) : List ℕ :=
  [x % 256, x / 256 % 256, x / 65536 % 256, x / 16777216 % 256]

/-- `ltob` (src/zpaq.cpp:1448): convert `x` (a nonnegative int64 value) to an
8 byte little-endian string. -/
def ltob (x : ℕ) : List ℕ :=
  [x % 256, x / 256 % 256, x / 65536 % 256, x / 16777216 % 256,
   x / 2^32 % 256, x / 2^40 % 256, x / 2^48 % 256, x / 2^56 % 256]

/-- `btoi` (src/zpaq.cpp:1428) as an unsigned 32-bit value: read a 4 byte
little-endian int.  (The C function returns `int`; callers that treat the
result as unsigned get this value.) -/
def btoiU (s : List ℕ) : ℕ :=
  s.getD 0 0 % 256 + s.getD 1 0 % 256 * 256 + s.getD 2 0 % 256 * 65536
    + s.getD 3 0 % 256 * 16777216

/-- `btoi` (src/zpaq.cpp:1428) as the signed 32-bit `int` the C function
returns (two's complement reading of the 4 bytes). -/
def btoiS (s : List ℕ) : ℤ :=
  if btoiU s < 2^31 then (btoiU s : ℤ) else (btoiU s : ℤ) - 2^32

/-- `btol` (src/zpaq.cpp:1435): read an 8 byte little-endian `int64_t`:
the low 4 bytes unsigned plus the high 4 bytes signed, shifted by 32. -/
def btol (s : List ℕ) : ℤ :=
  (btoiU s : ℤ) + btoiS (s.drop 4) * 2^32

theorem btoiU_itob (x : ℕ) (hx : x < 2^32) : btoiU (itob x) = x := by
  simp only [itob, btoiU, List.getD_cons_zero, List.getD_cons_succ]
  omega

theorem btol_ltob (x : ℕ) (hx : x < 2^63) : btol (ltob x) = x := by
  simp only [ltob, btol, btoiU, btoiS, List.drop,
    List.getD_cons_zero, List.getD_cons_succ]
  split <;> omega

/-! ## The fragment chunker (src/zpaq.cpp:4050-4070, inside `Jidac::add`)

For each fragment the source resets `h=0`, `c1=0`, `o1[256]={0}`, `sz=0`
and then reads bytes one at a time:

```
c=in.get();
if (c!=EOF) {
  sb.put(c);
  if (c==o1[c1]) h=(h+c+1)*314159265u; else h=(h+c+1)*271828182u;
  o1[c1]=c; c1=c; sha1.put(c); ++sz;
}
if (c==EOF || (h<65536 && sz>=MIN_FRAGMENT) || sz>=MAX_FRAGMENT) break;
```

with `MIN_FRAGMENT=4096`, `MAX_FRAGMENT=520192` (src/zpaq.cpp:3956-3957).
`h` is a 32-bit `unsigned`, so the multiplications are mod `2^32`.
The order-1 table `o1` is embedded as a `List ℕ` of length 256.
-/

def MIN_FRAGMENT : ℕ := 4096
def MAX_FRAGMENT : ℕ := 520192

/-- One step of the rolling-hash update: the new value of `h` after reading
byte `c` with previous byte `c1` and order-1 table `o1` (32-bit unsigned). -/
def hashStep (h c c1 : ℕ) (o1 : List ℕ) : ℕ :=
  if c = o1.getD c1 0 then (h + c + 1) * 314159265 % 2^32
  else (h + c + 1) * 271828182 % 2^32

/-- Result of reading one fragment: the fragment's bytes, the unread rest of
the input, and whether the loop ended because `in.get()` returned EOF. -/
structure FragResult where
  frag : List ℕ
  rest : List ℕ
  hitEof : Bool
  deriving Repr, DecidableEq

/-- The fragment-reading loop of `Jidac::add` (src/zpaq.cpp:4057-4069).
`acc` accumulates the bytes put into `sb`/`sha1` so far (`sz = acc.length`). -/
def readFragGo (h c1 : ℕ) (o1 : List ℕ) (acc : List ℕ) :
    List ℕ → FragResult
  | [] => ⟨acc, [], true⟩
  | c :: l =>
    let h' := hashStep h c c1 o1
    let o1' := o1.set c1 c
    let acc' := acc ++ [c]
    if h' < 65536 ∧ acc'.length ≥ MIN_FRAGMENT ∨ acc'.length ≥ MAX_FRAGMENT then
      ⟨acc', l, false⟩
    else
      readFragGo h' c o1' acc' l

/-- Read one fragment from the start of `l` (fresh `h=0`, `c1=0`, zeroed `o1`,
as the source declares them per fragment). -/
def readFragment (l : List ℕ) : FragResult :=
  readFragGo 0 0 (List.replicate 256 0) [] l

theorem readFragGo_spec (l : List ℕ) : ∀ (h c1 : ℕ) (o1 acc : List ℕ),
    (readFragGo h c1 o1 acc l).frag ++ (readFragGo h c1 o1 acc l).rest
      = acc ++ l ∧
    ((readFragGo h c1 o1 acc l).hitEof = false →
      acc.length < (readFragGo h c1 o1 acc l).frag.length) ∧
    ((readFragGo h c1 o1 acc l).hitEof = true →
      (readFragGo h c1 o1 acc l).rest = []) := by
  induction l with
  | nil => intro h c1 o1 acc; simp [readFragGo]
  | cons c l ih =>
    intro h c1 o1 acc
    simp only [readFragGo]
    split
    · simp
    · refine ⟨?_, ?_, ?_⟩
      · rw [(ih _ _ _ _).1]; simp
      · intro he
        have := (ih (hashStep h c c1 o1) c (o1.set c1 c) (acc ++ [c])).2.1 he
        simp at this
        omega
      · exact (ih _ _ _ _).2.2

/-- The bytes of a fragment followed by the unread rest reconstitute the
input, a fragment that did not end at EOF is nonempty, and a fragment that
ended at EOF exhausted the input. -/
theorem readFragment_spec (l : List ℕ) :
    (readFragment l).frag ++ (readFragment l).rest = l ∧
    ((readFragment l).hitEof = false → (readFragment l).frag ≠ []) ∧
    ((readFragment l).hitEof = true → (readFragment l).rest = []) := by
  have h := readFragGo_spec l 0 0 (List.replicate 256 0) []
  rw [List.nil_append] at h
  simp only [readFragment]
  refine ⟨h.1, fun he => ?_, h.2.2⟩
  have := h.2.1 he
  simp only [List.length_nil] at this
  exact List.ne_nil_of_length_pos this

theorem readFragment_rest_lt (l : List ℕ) (he : (readFragment l).hitEof = false) :
    (readFragment l).rest.length < l.length := by
  have h := readFragment_spec l
  have h1 := congrArg List.length h.1
  simp only [List.length_append] at h1
  have h2 : 0 < (readFragment l).frag.length :=
    List.length_pos.mpr (h.2.1 he)
  omega

/-- Fueled fragment loop; the fuel only serves termination and is
immaterial once it exceeds the input length (each fragment that does not
end at EOF consumes at least one byte). -/
def chunkGo : ℕ → List ℕ → List (List ℕ)
  | 0, _ => []
  | fuel + 1, l =>
    let r := readFragment l
    if r.hitEof then [r.frag]
    else r.frag :: chunkGo fuel r.rest

/-- The sequence of fragments read from one input file by `Jidac::add`
(src/zpaq.cpp:4048-4148): fragments are read until one ends at EOF (so an
empty input yields a single empty fragment, and an input whose last fragment
ended exactly at a rolling-hash boundary yields a trailing empty fragment). -/
def chunkFile (l : List ℕ) : List (List ℕ) :=
  chunkGo (l.length + 1) l

theorem chunkGo_join : ∀ (n : ℕ) (l : List ℕ), l.length < n →
    (chunkGo n l).flatten = l := by
  intro n
  induction n with
  | zero => intro l hl; omega
  | succ n ih =>
    intro l hl
    simp only [chunkGo]
    split
    · next he =>
      have h := readFragment_spec l
      have hr : (readFragment l).rest = [] := h.2.2 he
      have h1 := h.1
      rw [hr, List.append_nil] at h1
      simpa using h1
    · next he =>
      have h := readFragment_spec l
      have hlt := readFragment_rest_lt l (by simpa using he)
      simp only [List.flatten_cons]
      rw [ih (readFragment l).rest (by omega)]
      exact h.1

/-- Concatenating the fragments of a file gives back the file's bytes. -/
theorem chunkFile_join (l : List ℕ) : (chunkFile l).flatten = l :=
  chunkGo_join (l.length + 1) l (Nat.lt_succ_self _)

/-! ### Specification-side boundary rule (for claim C2)

Written from the spec's words: "for each incoming byte `c`, update
`h := (h + c + 1) · K` with `K = 314159265` when `c == o1[c_prev]` and
`K = 271828182` otherwise, then `o1[c_prev] := c`"; "emit when rolling hash
< 2^16 and current length ≥ 4096, or length reaches 520192". -/

/-- Spec-side per-byte update of the rolling-hash state `(h, c_prev, o1)`. -/
def specUpd (s : ℕ × ℕ × List ℕ) (c : ℕ) : ℕ × ℕ × List ℕ :=
  (if c = s.2.2.getD s.2.1 0 then (s.1 + c + 1) * 314159265 % 2^32
   else (s.1 + c + 1) * 271828182 % 2^32,
   c, s.2.2.set s.2.1 c)

/-- Spec-side rolling-hash state after processing the byte list `p` from a
fresh state (`h = 0`, `c_prev = 0`, zeroed `o1`). -/
def specState (p : List ℕ) : ℕ × ℕ × List ℕ :=
  p.foldl specUpd (0, 0, List.replicate 256 0)

/-- Spec-side boundary condition at the end of a fragment prefix `p`. -/
def specBoundary (p : List ℕ) : Prop :=
  (specState p).1 < 65536 ∧ p.length ≥ 4096 ∨ p.length ≥ 520192

instance (p : List ℕ) : Decidable (specBoundary p) := by
  unfold specBoundary; infer_instance

theorem specState_append (p : List ℕ) (c : ℕ) :
    specState (p ++ [c]) = specUpd (specState p) c := by
  simp only [specState, List.foldl_append, List.foldl_cons, List.foldl_nil]

theorem readFragGo_exact : ∀ (l : List ℕ) (h c1 : ℕ) (o1 acc : List ℕ),
    specState acc = (h, c1, o1) →
    (∀ k, k ≤ acc.length → ¬ specBoundary (acc.take k)) →
    ((readFragGo h c1 o1 acc l).hitEof = false →
      specBoundary (readFragGo h c1 o1 acc l).frag ∧
      ∀ k, k < (readFragGo h c1 o1 acc l).frag.length →
        ¬ specBoundary ((readFragGo h c1 o1 acc l).frag.take k)) ∧
    ((readFragGo h c1 o1 acc l).hitEof = true →
      ∀ k, k ≤ (readFragGo h c1 o1 acc l).frag.length →
        ¬ specBoundary ((readFragGo h c1 o1 acc l).frag.take k)) := by
  intro l
  induction l with
  | nil =>
    intro h c1 o1 acc hst hinv
    exact ⟨fun hf => by simp [readFragGo] at hf, fun _ => by simpa [readFragGo] using hinv⟩
  | cons c l ih =>
    intro h c1 o1 acc hst hinv
    have hst' : specState (acc ++ [c]) = (hashStep h c c1 o1, c, o1.set c1 c) := by
      rw [specState_append, hst]
      simp [specUpd, hashStep]
    have hbd : specBoundary (acc ++ [c]) ↔
        (hashStep h c c1 o1 < 65536 ∧ (acc ++ [c]).length ≥ MIN_FRAGMENT ∨
         (acc ++ [c]).length ≥ MAX_FRAGMENT) := by
      unfold specBoundary MIN_FRAGMENT MAX_FRAGMENT at *
      rw [hst']
    have htk : ∀ k, k ≤ acc.length → (acc ++ [c]).take k = acc.take k := by
      intro k hk
      exact List.take_append_of_le_length hk
    simp only [readFragGo]
    split
    · next hcond =>
      refine ⟨fun _ => ⟨hbd.mpr hcond, fun k hk => ?_⟩, fun hf => by simp at hf⟩
      simp only [List.length_append, List.length_cons, List.length_nil] at hk
      rw [htk k (by omega)]
      exact hinv k (by omega)
    · next hcond =>
      apply ih (hashStep h c c1 o1) c (o1.set c1 c) (acc ++ [c]) hst'
      intro k hk
      simp only [List.length_append, List.length_cons, List.length_nil] at hk
      rcases Nat.lt_or_ge k (acc.length + 1) with hk' | hk'
      · rw [htk k (by omega)]
        exact hinv k (by omega)
      · have hkeq : k = (acc ++ [c]).length := by
          simp only [List.length_append, List.length_cons, List.length_nil]
          omega
        rw [hkeq, List.take_length]
        exact fun hb => hcond (hbd.mp hb)

/-- **C2.** For every input byte stream, the chunker emits a fragment
boundary exactly when the rolling hash `h` is `< 65536` and the current
fragment length is `≥ 4096`, or the length reaches `520192`, or end of
input; `h` is updated per byte `c` as `h := (h+c+1)*314159265 (mod 2^32)`
when `c = o1[c_prev]` and `h := (h+c+1)*271828182 (mod 2^32)` otherwise,
after which `o1[c_prev] := c` (the rule embodied in `specBoundary`):
a fragment not ended by EOF ends at the first position satisfying the
boundary condition, and no position inside any fragment satisfies it. -/
theorem c2_chunker_boundary (l : List ℕ) :
    ((readFragment l).hitEof = false →
      specBoundary (readFragment l).frag ∧
      ∀ k, k < (readFragment l).frag.length →
        ¬ specBoundary ((readFragment l).frag.take k)) ∧
    ((readFragment l).hitEof = true →
      (readFragment l).rest = [] ∧
      ∀ k, k ≤ (readFragment l).frag.length →
        ¬ specBoundary ((readFragment l).frag.take k)) ∧
    (readFragment l).frag ++ (readFragment l).rest = l := by
  have h1 := readFragment_spec l
  have h2 := readFragGo_exact l 0 0 (List.replicate 256 0) [] rfl
    (by intro k hk
        simp only [List.length_nil, Nat.le_zero] at hk
        subst hk
        intro hb
        rw [List.take_nil] at hb
        rcases hb with ⟨_, hlen⟩ | hlen <;> simp at hlen)
  exact ⟨h2.1, fun he => ⟨h1.2.2 he, h2.2 he⟩, h1.1⟩

/-- Witness for `c2_chunker_boundary` at the concrete input `[1, 2, 3]`:
the fragment ends at EOF, exhausts the input, and no boundary fires early. -/
theorem c2_chunker_boundary_witness :
    (readFragment [1, 2, 3]).rest = [] ∧
    ¬ specBoundary ((readFragment [1, 2, 3]).frag.take 2) :=
  ⟨((c2_chunker_boundary [1, 2, 3]).2.1 (by decide)).1,
   ((c2_chunker_boundary [1, 2, 3]).2.1 (by decide)).2 2 (by decide)⟩

/-! ## Fragment hash table and dedup index

`HT` (src/zpaq.cpp:1496-1505): 20-byte hash, uncompressed size (`-1` if
unknown), and locator `csize` (block offset if `≥ 0`, else minus the
fragment's position in its block; `HT_BAD` marks "no such fragment").
`HTIndex` (src/zpaq.cpp:3750-3781): 2^22 buckets keyed by the low 22 bits
of the first three hash bytes; each bucket lists candidate fragment IDs,
checked by a full 20-byte compare; only fragments of known size are
indexed. -/

def HT_BAD : ℤ := 0x7FFFFFFFFFFFFFFA

structure HT where
  sha1 : List ℕ
  usize : ℤ
  csize : ℤ
  deriving Repr, DecidableEq

instance : Inhabited HT := ⟨⟨List.replicate 20 0, -1, HT_BAD⟩⟩

/-- `HTIndex::hash` (src/zpaq.cpp:3758):
`(sha1[0] | (sha1[1]<<8) | (sha1[2]<<16)) & (2^22 - 1)`. -/
def htHash (sha1 : List ℕ) : ℕ :=
  (sha1.getD 0 0 + sha1.getD 1 0 * 256 + sha1.getD 2 0 * 65536) % 2^22

structure HTIndex where
  t : ℕ → List ℕ
  htsize : ℕ

/-- `HTIndex::find` (src/zpaq.cpp:3766-3772): scan the bucket for `sha1`,
return the first candidate whose full 20-byte hash matches, else 0. -/
def HTIndex.find (idx : HTIndex) (ht : List HT) (sha1 : List ℕ) : ℕ :=
  ((idx.t (htHash sha1)).find?
    (fun i => decide ((ht.getD i default).sha1 = sha1))).getD 0

/-- `HTIndex::update` (src/zpaq.cpp:3775-3780): index every not-yet-indexed
`ht` entry whose size is known (`usize ≥ 0`), appending its index to its
bucket; advance `htsize` to `ht.size()`. -/
def HTIndex.update (idx : HTIndex) (ht : List HT) : HTIndex :=
  { t := (List.range ht.length).foldl
      (fun tt i =>
        if idx.htsize ≤ i ∧ 0 ≤ (ht.getD i default).usize then
          fun b => if b = htHash (ht.getD i default).sha1 then tt b ++ [i]
                   else tt b
        else tt)
      idx.t,
    htsize := max idx.htsize ht.length }

/-! ## The dedup step of `Jidac::add` (src/zpaq.cpp:4073-4145)

After a fragment's bytes have been appended to the pending block `sb`
during reading, the fragment's SHA-1 is looked up in `htinv`:

```
unsigned j=htinv.find(sh);
if (j==0) { j=ht.size(); ht.push_back(HT(sh, sz, 0)); ++frags; htinv.update(); ... }
else { sb.resize(sb.size()-sz); }
...; eptr[fj++]=j;
```

The SHA-1 itself lives in libzpaq (outside src/), so it is a parameter
`hashF`. `eptr` grows by appends here (per file, `fj` walks `eptr`
contiguously from 0). -/

structure AddSt where
  sb : List ℕ
  ht : List HT
  htinv : HTIndex
  eptr : List ℕ
  frags : ℕ

def dedupStep (hashF : List ℕ → List ℕ) (st : AddSt) (frag : List ℕ) :
    AddSt :=
  let sb1 := st.sb ++ frag
  let sh := hashF frag
  let j := st.htinv.find st.ht sh
  if j = 0 then
    let ht' := st.ht ++ [⟨sh, (frag.length : ℤ), 0⟩]
    { sb := sb1, ht := ht', htinv := st.htinv.update ht',
      eptr := st.eptr ++ [st.ht.length], frags := st.frags + 1 }
  else
    { st with sb := sb1.take (sb1.length - frag.length),
              eptr := st.eptr ++ [j] }

/-- If `HTIndex.find` returns a nonzero id, that entry's 20-byte hash equals
the key (it passed the full `memcmp`). -/
theorem HTIndex.find_sound (idx : HTIndex) (ht : List HT) (sha1 : List ℕ)
    (h : idx.find ht sha1 ≠ 0) :
    (ht.getD (idx.find ht sha1) default).sha1 = sha1 := by
  have hdef : idx.find ht sha1 = ((idx.t (htHash sha1)).find?
      (fun i => decide ((ht.getD i default).sha1 = sha1))).getD 0 := rfl
  cases hf : (idx.t (htHash sha1)).find?
      (fun i => decide ((ht.getD i default).sha1 = sha1)) with
  | none => rw [hdef, hf] at h; simp at h
  | some i =>
    rw [hdef, hf, Option.getD_some]
    have := List.find?_some hf
    simpa using this

/-- **C3.** During add, a chunked fragment whose SHA-1 is found in the dedup
index has its bytes removed from the pending block buffer (net buffer size
unchanged), creates no new HT entry, and records the existing fragment ID in
the file's fragment-pointer list (that ID's stored hash equals the
fragment's); a fragment not found creates a new HT entry (hash, size,
provisional locator 0) and leaves its bytes in the pending block. -/
theorem c3_dedup_step (hashF : List ℕ → List ℕ) (st : AddSt)
    (frag : List ℕ) :
    (st.htinv.find st.ht (hashF frag) ≠ 0 →
      (dedupStep hashF st frag).sb = st.sb ∧
      (dedupStep hashF st frag).sb.length = st.sb.length ∧
      (dedupStep hashF st frag).ht = st.ht ∧
      (dedupStep hashF st frag).eptr
        = st.eptr ++ [st.htinv.find st.ht (hashF frag)] ∧
      (st.ht.getD (st.htinv.find st.ht (hashF frag)) default).sha1
        = hashF frag) ∧
    (st.htinv.find st.ht (hashF frag) = 0 →
      (dedupStep hashF st frag).sb = st.sb ++ frag ∧
      (dedupStep hashF st frag).ht
        = st.ht ++ [⟨hashF frag, (frag.length : ℤ), 0⟩] ∧
      (dedupStep hashF st frag).eptr = st.eptr ++ [st.ht.length]) := by
  constructor
  · intro hne
    have hsb : (st.sb ++ frag).take ((st.sb ++ frag).length - frag.length)
        = st.sb := by
      rw [List.length_append, Nat.add_sub_cancel]
      exact List.take_left _ _
    refine ⟨?_, ?_, ?_, ?_, HTIndex.find_sound _ _ _ hne⟩ <;>
      simp only [dedupStep, if_neg hne, hsb]
  · intro heq
    refine ⟨?_, ?_, ?_⟩ <;> simp only [dedupStep, if_pos heq]

/-- Witness for `c3_dedup_step`: a state whose index already holds the
fragment `[5]` under id 1; re-adding `[5]` leaves the buffer and the table
unchanged and records pointer 1. -/
theorem c3_dedup_step_witness :
    (dedupStep id ⟨[9], [default, ⟨[5], 1, 0⟩],
        ⟨fun b => if b = 5 then [1] else [], 2⟩, [], 0⟩ [5]).sb = [9] ∧
    (dedupStep id ⟨[9], [default, ⟨[5], 1, 0⟩],
        ⟨fun b => if b = 5 then [1] else [], 2⟩, [], 0⟩ [5]).ht.length = 2 ∧
    (dedupStep id ⟨[9], [default, ⟨[5], 1, 0⟩],
        ⟨fun b => if b = 5 then [1] else [], 2⟩, [], 0⟩ [5]).eptr = [1] := by
  have h := (c3_dedup_step id ⟨[9], [default, ⟨[5], 1, 0⟩],
      ⟨fun b => if b = 5 then [1] else [], 2⟩, [], 0⟩ [5]).1 (by decide)
  refine ⟨by rw [h.1], by rw [h.2.2.1]; rfl, by rw [h.2.2.2.1]; decide⟩

/-! ## Back-filling fragment locators after the workers are joined

At flush time `Jidac::add` marks only the first fragment of each pending
block: `ht[ht.size()-frags].csize=-1;` (src/zpaq.cpp:4102); the other
fragments keep the provisional locator 0 set at creation (`HT(sh, sz, 0)`,
src/zpaq.cpp:4080).  After the workers are joined (src/zpaq.cpp:4160-4164):

```
unsigned j=0;
for (unsigned i=htsize; i<ht.size() && j<job.csize.size(); ++i)
  if (ht[i].csize==-1) ht[i].csize=job.csize[j++];
```

where `job.csize` holds, in write order, the *compressed sizes* recorded by
the writer thread (`job.csize.push_back(cj.out.size())`, src/zpaq.cpp:3716).
-/

def fillGo : List HT → List ℤ → List HT
  | [], _ => []
  | e :: r, [] => e :: r
  | e :: r, c :: cs' =>
    if e.csize = -1 then { e with csize := c } :: fillGo r cs'
    else e :: fillGo r (c :: cs')

/-- The locator fill-in loop of `Jidac::add` (src/zpaq.cpp:4160-4164),
scanning `ht` from index `htsize`. -/
def fillCsize (htsize : ℕ) (ht : List HT) (cs : List ℤ) : List HT :=
  ht.take htsize ++ fillGo (ht.drop htsize) cs

theorem fillGo_nil_cs (l : List HT) : fillGo l [] = l := by
  cases l <;> rfl

theorem fillGo_unmarked (rest tail : List HT) (cs : List ℤ)
    (h : ∀ e ∈ rest, e.csize ≠ -1) :
    fillGo (rest ++ tail) cs = rest ++ fillGo tail cs := by
  induction rest generalizing cs with
  | nil => rfl
  | cons e r ih =>
    cases cs with
    | nil => rw [fillGo_nil_cs, fillGo_nil_cs]
    | cons c cs' =>
      rw [List.cons_append, fillGo, if_neg (h e (by simp))]
      rw [ih (c :: cs') (fun x hx => h x (by simp [hx]))]
      rfl

/-- **C8 (amended).** After the workers are joined, the fill-in loop assigns
the writer's recorded values (`job.csize`, the compressed block sizes) in
order to the fragments marked `-1` at flush time — exactly the first
fragment of each flushed block — and leaves every other fragment's locator
unchanged (the subsequent fragments of a block keep their provisional 0,
not `-1, -2, …`; offsets and `-1, -2, …` locators arise only when
`read_archive` later reparses the `h` blocks). -/
theorem c8_fill_locators (pre : List HT) (bs : List (HT × List HT))
    (cs : List ℤ)
    (hmark : ∀ b ∈ bs, b.1.csize = -1 ∧ ∀ e ∈ b.2, e.csize ≠ -1)
    (hlen : cs.length = bs.length) :
    fillCsize pre.length (pre ++ (bs.map fun b => b.1 :: b.2).flatten) cs
      = pre ++ ((bs.zip cs).map
          fun bc => { bc.1.1 with csize := bc.2 } :: bc.1.2).flatten := by
  unfold fillCsize
  rw [List.take_left, List.drop_left]
  congr 1
  induction bs generalizing cs with
  | nil =>
    have : cs = [] := List.length_eq_zero.mp (by simpa using hlen)
    subst this
    rfl
  | cons b bs ih =>
    cases cs with
    | nil => simp at hlen
    | cons c cs' =>
      simp only [List.map_cons, List.flatten_cons, List.zip_cons_cons]
      rw [List.cons_append, fillGo, if_pos (hmark b (by simp)).1]
      rw [fillGo_unmarked b.2 _ cs' (hmark b (by simp)).2]
      rw [ih cs' (fun x hx => hmark x (by simp [hx])) (by simpa using hlen)]
      simp

/-- Witness for `c8_fill_locators`: one block of two fragments; the writer
recorded compressed size 100; after the fill the first fragment's locator is
100 and the second keeps 0. -/
theorem c8_fill_locators_witness :
    fillCsize 1 [default, ⟨[1], 5, -1⟩, ⟨[2], 6, 0⟩] [100]
      = [default, ⟨[1], 5, 100⟩, ⟨[2], 6, 0⟩] := by
  have h := c8_fill_locators [default] [(⟨[1], 5, -1⟩, [⟨[2], 6, 0⟩])] [100]
    (by intro b hb
        simp only [List.mem_singleton] at hb
        subst hb
        exact ⟨rfl, by intro e he; simp only [List.mem_singleton] at he; subst he; decide⟩)
    rfl
  simpa using h

/-- **C8 counterexample.** The claim as stated fails on the code: with one
flushed block holding fragments 1 and 2 (first marked `-1` at flush, second
created with locator 0) and writer record `[100]`, fragment 2's locator
after the fill-in loop is 0, not `-1`. -/
theorem c8_counterexample :
    ((fillCsize 1 [default, ⟨[1], 5, -1⟩, ⟨[2], 6, 0⟩] [100]).getD 2
        default).csize ≠ -1 := by decide

/-! ## The journal reader `Jidac::read_archive` (src/zpaq.cpp:1773-2133)

In-memory state rebuilt from the archive: `ht` (fragment table, entry 0 a
sentinel), `dt` (path → version list), `ver` (snapshots, entry 0 a dummy),
plus the reader's running `data_offset`, the `pass == ERR` flag and the
error counter.  Only the normal pass is modelled (no RECOVER). -/

structure DTVm where
  date : ℤ
  size : ℤ
  attr : ℕ
  ptr : List ℕ
  version : ℕ
  deriving Repr, DecidableEq

structure VERm where
  date : ℕ
  usize : ℤ
  offset : ℕ
  updates : ℕ
  deletes : ℕ
  firstFragment : ℕ
  deriving Repr, DecidableEq

structure RState where
  ht : List HT
  dt : List (List ℕ × List DTVm)
  ver : List VERm
  dataOffset : ℕ
  isErr : Bool
  errors : ℕ

/-- Initial reader state: `ht.resize(1)` and `ver.resize(1)`
(src/zpaq.cpp:1687-1688). -/
def initRState : RState :=
  ⟨[default], [], [⟨0, 0, 0, 0, 0, 0⟩], 0, false, 0⟩

/-- Modify the last element of a list (`ver.back()` updates). -/
def updateLast (l : List VERm) (f : VERm → VERm) : List VERm :=
  match l.getLast? with
  | none => l
  | some v => l.dropLast ++ [f v]

/-- Append a version entry under path `fp` in the `dt` map (`dt[fp]` plus
`dtv.push_back`). -/
def dtPush (dt : List (List ℕ × List DTVm)) (fp : List ℕ) (v : DTVm) :
    List (List ℕ × List DTVm) :=
  match dt.find? (fun kv => kv.1 == fp) with
  | none => dt ++ [(fp, [v])]
  | some _ => dt.map (fun kv => if kv.1 == fp then (kv.1, kv.2 ++ [v]) else kv)

/-- Attribute decoding in the `i` branch (src/zpaq.cpp:1990-1992): the
first (up to) 8 attribute bytes assembled little-endian. -/
def attrDecode (bytes : List ℕ) : ℕ :=
  (bytes.take 8).foldr (fun b acc => b % 256 + acc * 256) 0

/-- Result of the fragment-pointer loop of an `i` record. -/
structure PtrRes where
  ht : List HT
  ptrs : List ℕ
  su : ℤ
  rem : List ℕ
  errF : Bool
  bad : Bool

/-- The fragment-pointer loop of the `i` branch (src/zpaq.cpp:1996-2003):

```
for (unsigned i=0; i<ni && s<=end-4; ++i) {
  dtv.ptr[i]=btoi(s);
  if (dtv.ptr[i]<1 || dtv.ptr[i]>=ht.size()+(1<<24)) error("bad fragment ID");
  while (dtv.ptr[i]>=ht.size()) { pass=ERR; ht.push_back(HT()); }
  dtv.size+=ht[dtv.ptr[i]].usize; ver.back().usize+=ht[dtv.ptr[i]].usize;
}
```

`bad` signals the thrown `error("bad fragment ID")` (which aborts the
block); `errF` records `pass=ERR`. -/
def ptrLoop (ht : List HT) (rem : List ℕ) : ℕ → PtrRes
  | 0 => ⟨ht, [], 0, rem, false, false⟩
  | n + 1 =>
    if rem.length < 4 then ⟨ht, [], 0, rem, false, false⟩
    else
      let p := btoiU (rem.take 4)
      let rem1 := rem.drop 4
      if p < 1 ∨ ht.length + 2^24 ≤ p then ⟨ht, [p], 0, rem1, false, true⟩
      else
        let errHere := decide (ht.length ≤ p)
        let ht1 := ht ++ List.replicate (p + 1 - ht.length) default
        let u := (ht1.getD p default).usize
        let r := ptrLoop ht1 rem1 n
        ⟨r.ht, p :: r.ptrs, u + r.su, r.rem, errHere || r.errF, r.bad⟩

/-- The filename of the record at the head of `rem`: the NUL-terminated
string starting 8 bytes in (`const char* fp=s+8`). -/
def iRecName (rem : List ℕ) : List ℕ :=
  (rem.drop 8).takeWhile (fun b => b != 0)

/-- The remaining payload after a record's date and filename:
`s += 8` (by `btol`) then `s += strlen(fp)+1`. -/
def iRecTail (rem : List ℕ) : List ℕ :=
  (rem.drop 8).drop ((iRecName rem).length + 1)

/-- One record of an `i` block (src/zpaq.cpp:1979-2004), starting from the
remaining payload bytes `rem` (with `rem.length ≥ 9`); returns the updated
state, the remaining bytes, and whether `error("bad fragment ID")` was
thrown. -/
def parseIRecord (st : RState) (rem : List ℕ) : RState × List ℕ × Bool :=
  let date := btol (rem.take 8)
  let fp := iRecName rem
  let rem2 := iRecTail rem
  let ver1 := updateLast st.ver (fun v =>
    if date ≠ 0 then { v with updates := v.updates + 1 }
    else { v with deletes := v.deletes + 1 })
  let vnum := st.ver.length - 1
  if date ≠ 0 ∧ 8 ≤ rem2.length then
    let na := btoiU (rem2.take 4)
    let rem3 := rem2.drop 4
    let nattr := min na rem3.length
    let attr := attrDecode (rem3.take nattr)
    let rem4 := rem3.drop nattr
    if 4 ≤ rem4.length then
      let ni := btoiU (rem4.take 4)
      let rem5 := rem4.drop 4
      let r := ptrLoop st.ht rem5 ni
      let dtv : DTVm := ⟨date, r.su, attr,
        r.ptrs ++ List.replicate (ni - r.ptrs.length) 0, vnum⟩
      (⟨r.ht, dtPush st.dt fp dtv,
        updateLast ver1 (fun v => { v with usize := v.usize + r.su }),
        st.dataOffset, st.isErr || r.errF, st.errors⟩, r.rem, r.bad)
    else
      ({ st with dt := dtPush st.dt fp ⟨date, 0, attr, [], vnum⟩,
                 ver := ver1 }, rem4, false)
  else
    ({ st with dt := dtPush st.dt fp ⟨date, 0, 0, [], vnum⟩,
               ver := ver1 }, rem2, false)

theorem ptrLoop_rem_le (rem : List ℕ) : ∀ (ht : List HT) (n : ℕ),
    (ptrLoop ht rem n).rem.length ≤ rem.length := by
  intro ht n
  induction n generalizing ht rem with
  | zero => simp [ptrLoop]
  | succ n ih =>
    simp only [ptrLoop]
    split
    · simp
    · split
      · simp only [List.length_drop]; omega
      · have := ih (rem.drop 4)
          (ht ++ List.replicate (btoiU (rem.take 4) + 1 - ht.length) default)
        simp only [List.length_drop] at this ⊢
        omega

theorem iRecTail_len (rem : List ℕ) :
    (iRecTail rem).length + 9 ≤ rem.length + (if 9 ≤ rem.length then 0 else 9) := by
  unfold iRecTail
  simp only [List.length_drop]
  split <;> omega

theorem parseIRecord_rem_lt (st : RState) (rem : List ℕ)
    (h9 : 9 ≤ rem.length) :
    (parseIRecord st rem).2.1.length < rem.length := by
  have hir : (iRecTail rem).length + 9 ≤ rem.length := by
    have := iRecTail_len rem
    rw [if_pos h9] at this
    omega
  simp only [parseIRecord]
  split
  · split
    · refine lt_of_le_of_lt (ptrLoop_rem_le _ _ _) ?_
      simp only [List.length_drop]
      omega
    · simp only [List.length_drop]
      omega
  · show (iRecTail rem).length < rem.length
    omega

/-- The record loop of the `i` branch: `while (s<=end-9) { … }`
(src/zpaq.cpp:1978); stops early when `error("bad fragment ID")` is thrown
(second component `true`).  Fueled for termination: every record consumes
at least 9 bytes, so fuel `≥ rem.length` is immaterial. -/
def parseIGo : ℕ → RState → List ℕ → RState × Bool
  | 0, st, _ => (st, false)
  | fuel + 1, st, rem =>
    if 9 ≤ rem.length then
      let r := parseIRecord st rem
      if r.2.2 then (r.1, true)
      else parseIGo fuel r.1 r.2.1
    else (st, false)

def parseIBlock (st : RState) (os : List ℕ) : RState × Bool :=
  parseIGo (os.length + 1) st os

/-! ## The block loop of `read_archive`

Blocks as the reader encounters them, already classified by their filename
prefix (`jDC<date>[cdhi]<num>`).  `ext` is the distance in archive bytes from
the block's start to the next block's start; the reader's `in.tell()` after
reading a block that starts at `pos` is modelled as `pos + ext - 1`, so that
`data_offset = in.tell()+1` (src/zpaq.cpp:1912) is the following block's
start.  (The byte-level framing itself lives in libzpaq, outside src/;
Modelled from the spec: "c (transaction head): 8-byte payload giving the
byte length of the contiguous run of d blocks that follow, enabling readers
to skip the bulk data".) -/

inductive PBlock where
  | cB (fdate : ℕ) (os : List ℕ) (ext : ℕ)
  | hB (num : ℕ) (os : List ℕ) (ext : ℕ)
  | iB (os : List ℕ) (ext : ℕ)
  | dB (ext : ℕ)
  deriving Repr, DecidableEq

def PBlock.ext : PBlock → ℕ
  | .cB _ _ e => e
  | .hB _ _ e => e
  | .iB _ e => e
  | .dB e => e

/-- Seek over the `d` run: drop the blocks the `in.seek(jmp, SEEK_CUR)`
jumps over; reading resumes at the first block starting after `target`. -/
def skipBlocks : List PBlock → ℕ → ℕ → List PBlock × ℕ
  | [], pos, _ => ([], pos)
  | b :: r, pos, target =>
    if pos ≤ target then skipBlocks r (pos + b.ext) target
    else (b :: r, pos)

theorem skipBlocks_len_le (l : List PBlock) : ∀ (pos target : ℕ),
    (skipBlocks l pos target).1.length ≤ l.length := by
  induction l with
  | nil => intro pos target; simp [skipBlocks]
  | cons b r ih =>
    intro pos target
    rw [skipBlocks]
    split
    · exact le_trans (ih _ _) (by simp)
    · simp

/-- The tuple-loop of the `h` branch (src/zpaq.cpp:1959-1965): for each of
the `n` 24-byte `(sha1, usize)` tuples, grow `ht` to index `num+i`, copy the
hash, reject a duplicate ID (`csize != HT_BAD` before assignment throws
`error("duplicate fragment ID")` — second component `true`), else store
`usize` and the locator `i ? -int(i) : data_offset`. -/
def hLoop (os : List ℕ) (num : ℕ) (dataOff : ℕ) :
    ℕ → ℕ → List HT → List HT × Bool
  | 0, _, ht => (ht, false)
  | k + 1, i, ht =>
    let ht1 := ht ++ List.replicate (num + i + 1 - ht.length) default
    let cur := ht1.getD (num + i) default
    let sh := (os.drop (4 + 24 * i)).take 20
    if cur.csize ≠ HT_BAD then (ht1.set (num + i) { cur with sha1 := sh }, true)
    else
      hLoop os num dataOff k (i + 1)
        (ht1.set (num + i)
          ⟨sh, btoiS ((os.drop (24 + 24 * i)).take 4),
           if i = 0 then (dataOff : ℤ) else -(i : ℤ)⟩)

/-- The main loop of `read_archive` (src/zpaq.cpp:1801-2110), normal pass.
State beyond `RState`: `bo` is `block_offset` (start of the current block as
recorded at the end of the previous iteration), `pos` the current block's
start.  Returns the final state and the returned archive offset.  `version`
is the `-until` cutoff (snapshot count or 14-digit date). -/
def readLoop (version : ℕ) : ℕ → RState → ℕ → ℕ → List PBlock → RState × ℕ
  | 0, st, bo, _, _ => (st, bo)
  | _ + 1, st, bo, _, [] => (st, bo)
  | fuel + 1, st, bo, pos, b :: rest =>
    let tell := pos + b.ext - 1
    match b with
    | .cB fdate os ext =>
      if 19000000000000 ≤ fdate ∧ fdate < 30000000000000 then
        let st0 := { st with dataOffset := tell + 1 }
        let isbreak1 : Bool :=
          if version < 19000000000000 then decide (version < st.ver.length)
          else decide (version < fdate)
        let jmp : ℤ := if ¬isbreak1 ∧ os.length = 8 then btol os else 0
        let isbreak2 : Bool := isbreak1 || (decide (os.length = 8) && decide (jmp < 0))
        let st1 := if os.length ≠ 8 then { st0 with errors := st0.errors + 1 } else st0
        let isbreak3 : Bool := isbreak2 || decide (os.length ≠ 8)
        if isbreak3 then (st1, bo)
        else
          let st2 := { st1 with ver := st1.ver ++
            [⟨fdate, 0, bo, 0, 0, st1.ht.length⟩] }
          if 0 < jmp then
            let s := skipBlocks rest (pos + ext) (tell + jmp.toNat)
            readLoop version fuel st2 tell s.2 s.1
          else
            readLoop version fuel st2 tell (pos + ext) rest
      else
        readLoop version fuel { st with errors := st.errors + 1 } tell (pos + b.ext) rest
    | .hB num os ext =>
      if 0 < num ∧ 4 ≤ os.length then
        let bsize := btoiU (os.take 4)
        let n := (os.length - 4) / 24
        let st1 := if st.ht.length ≠ num then { st with isErr := true } else st
        let r := hLoop os num st1.dataOffset n 0 st1.ht
        if r.2 then
          readLoop version fuel { st1 with ht := r.1, errors := st1.errors + 1 }
            tell (pos + ext) rest
        else
          readLoop version fuel
            { st1 with ht := r.1, dataOffset := st1.dataOffset + bsize }
            tell (pos + ext) rest
      else
        readLoop version fuel { st with errors := st.errors + 1 } tell (pos + b.ext) rest
    | .iB os ext =>
      let r := parseIBlock st os
      if r.2 then
        readLoop version fuel { r.1 with errors := r.1.errors + 1 } tell (pos + ext) rest
      else
        readLoop version fuel r.1 tell (pos + ext) rest
    | .dB ext =>
      readLoop version fuel { st with errors := st.errors + 1 } tell (pos + ext) rest

/-- Entry point: run the reader on a block list with sufficient fuel
(every step consumes at least one block). -/
def readArchiveBlocks (version : ℕ) (blocks : List PBlock) : RState × ℕ :=
  readLoop version (blocks.length + 1) initRState 0 0 blocks

/-- **C9 counterexample.** The claim as stated fails on the code: with
`ht.size() = 2`, an `i` record referencing fragment pointer 2 (`= ht.size()`,
outside `[1, ht.size())`) is *not* rejected with a "bad fragment ID" error —
the record parses without the error being thrown; instead the reader flags
the archive for recovery (`pass=ERR`) and pads `ht` to length 3. -/
theorem c9_counterexample :
    (parseIBlock ⟨[default, ⟨[1], 1, 0⟩], [], [⟨0, 0, 0, 0, 0, 0⟩], 0, false, 0⟩
        (ltob 20250101000000 ++ [65, 0] ++ itob 0 ++ itob 1 ++ itob 2)).2
      = false ∧
    (parseIBlock ⟨[default, ⟨[1], 1, 0⟩], [], [⟨0, 0, 0, 0, 0, 0⟩], 0, false, 0⟩
        (ltob 20250101000000 ++ [65, 0] ++ itob 0 ++ itob 1 ++ itob 2)).1.isErr
      = true ∧
    (parseIBlock ⟨[default, ⟨[1], 1, 0⟩], [], [⟨0, 0, 0, 0, 0, 0⟩], 0, false, 0⟩
        (ltob 20250101000000 ++ [65, 0] ++ itob 0 ++ itob 1 ++ itob 2)).1.ht.length
      = 3 := by decide

/-- **C9 (amended).** When the journal reader parses an `i` record, a
fragment pointer `p` is rejected with a "bad fragment ID" error iff `p = 0`
or `p ≥ ht.size() + 2^24`; a pointer with `ht.size() ≤ p < ht.size() + 2^24`
is accepted: the parse continues with `pass = ERR` set and `ht` padded with
`HT_BAD` entries up to index `p`, so the pointer is in range afterwards. -/
theorem c9_ptr_check (ht : List HT) (rem : List ℕ) (n : ℕ)
    (h4 : 4 ≤ rem.length) :
    ((btoiU (rem.take 4) = 0 ∨ ht.length + 2^24 ≤ btoiU (rem.take 4)) →
      (ptrLoop ht rem (n + 1)).bad = true ∧
      (ptrLoop ht rem (n + 1)).ht = ht) ∧
    (1 ≤ btoiU (rem.take 4) → btoiU (rem.take 4) < ht.length + 2^24 →
      (ptrLoop ht rem (n + 1)).bad
        = (ptrLoop
            (ht ++ List.replicate (btoiU (rem.take 4) + 1 - ht.length) default)
            (rem.drop 4) n).bad ∧
      (ht.length ≤ btoiU (rem.take 4) →
        (ptrLoop ht rem (n + 1)).errF = true ∧
        (ht ++ List.replicate (btoiU (rem.take 4) + 1 - ht.length)
            default).length = btoiU (rem.take 4) + 1 ∧
        ∀ k, ht.length ≤ k → k ≤ btoiU (rem.take 4) →
          ((ht ++ List.replicate (btoiU (rem.take 4) + 1 - ht.length)
              default).getD k default).csize = HT_BAD)) := by
  have hnot : ¬ rem.length < 4 := by omega
  constructor
  · intro hp
    have hcond : btoiU (rem.take 4) < 1 ∨ ht.length + 2^24 ≤ btoiU (rem.take 4) := by
      omega
    simp only [ptrLoop, if_neg hnot, if_pos hcond]
    exact ⟨trivial, trivial⟩
  · intro hp1 hp2
    have hcond : ¬ (btoiU (rem.take 4) < 1 ∨
        ht.length + 2^24 ≤ btoiU (rem.take 4)) := by omega
    simp only [ptrLoop, if_neg hnot, if_neg hcond]
    refine ⟨trivial, fun hle => ⟨?_, ?_, ?_⟩⟩
    · simp [decide_eq_true hle]
    · simp only [List.length_append, List.length_replicate]
      omega
    · intro k hk1 hk2
      rw [List.getD_eq_getElem?_getD, List.getElem?_append_right hk1,
        List.getElem?_replicate]
      rw [if_pos (by omega)]
      rfl

/-- Witness for `c9_ptr_check`: `ht.size() = 2` and pointer bytes encoding
`p = 2`: no rejection, `pass=ERR` set, `ht` padded to length 3 with a
`HT_BAD` entry at index 2. -/
theorem c9_ptr_check_witness :
    (ptrLoop [default, ⟨[1], 1, 0⟩] (itob 2) 1).errF = true ∧
    (ptrLoop [default, ⟨[1], 1, 0⟩] (itob 2) 1).bad = false ∧
    ((([default, ⟨[1], 1, 0⟩] ++
        List.replicate (btoiU ((itob 2).take 4) + 1 - 2) default :
          List HT).getD 2 default).csize = HT_BAD) := by
  have h := c9_ptr_check [default, ⟨[1], 1, 0⟩] (itob 2) 0 (by decide)
  have h2 := h.2 (by decide) (by decide)
  refine ⟨(h2.2 (by decide)).1, ?_, (h2.2 (by decide)).2.2 2 (by decide) (by decide)⟩
  rw [h2.1]
  decide

/-! ## The `-until` argument (src/zpaq.cpp:1728-1743, `Jidac::doCommand`)

```
version=int64_t(atof(argv[++i]));
if (version>=19000000LL     && version<=29991231LL)     version=version*100+23;
if (version>=1900000000LL   && version<=2999123123LL)   version=version*100+59;
if (version>=190000000000LL && version<=299912312359LL) version=version*100+59;
```
-/

def untilVersion (v : ℕ) : ℕ :=
  let v1 := if 19000000 ≤ v ∧ v ≤ 29991231 then v * 100 + 23 else v
  let v2 := if 1900000000 ≤ v1 ∧ v1 ≤ 2999123123 then v1 * 100 + 59 else v1
  if 190000000000 ≤ v2 ∧ v2 ≤ 299912312359 then v2 * 100 + 59 else v2

instance : Inhabited VERm := ⟨⟨0, 0, 0, 0, 0, 0⟩⟩

/-- **C7.** An `-until` argument given as an 8-digit date `YYYYMMDD` is
treated as `YYYYMMDD235959`, and reading stops at the first `c` block whose
date exceeds this value: a snapshot dated `20250102000000` is excluded by
`--until 20250101` (no version entry is created) and included by
`--until 20250103`. -/
theorem c7_until (d : ℕ) (h1 : 19000101 ≤ d) (h2 : d ≤ 29991231) :
    untilVersion d = d * 1000000 + 235959 ∧
    (readArchiveBlocks (untilVersion 20250101)
        [.cB 20250102000000 (ltob 0) 10]).1.ver.length = 1 ∧
    (readArchiveBlocks (untilVersion 20250103)
        [.cB 20250102000000 (ltob 0) 10]).1.ver.length = 2 ∧
    ((readArchiveBlocks (untilVersion 20250103)
        [.cB 20250102000000 (ltob 0) 10]).1.ver.getD 1 default).date
      = 20250102000000 := by
  refine ⟨?_, by decide, by decide, by decide⟩
  unfold untilVersion
  have e1 : (if 19000000 ≤ d ∧ d ≤ 29991231 then d * 100 + 23 else d)
      = d * 100 + 23 := if_pos ⟨by omega, by omega⟩
  simp only [e1]
  have e2 : (if 1900000000 ≤ d * 100 + 23 ∧ d * 100 + 23 ≤ 2999123123
      then (d * 100 + 23) * 100 + 59 else d * 100 + 23)
      = (d * 100 + 23) * 100 + 59 := if_pos ⟨by omega, by omega⟩
  simp only [e2]
  have e3 : (if 190000000000 ≤ (d * 100 + 23) * 100 + 59 ∧
        (d * 100 + 23) * 100 + 59 ≤ 299912312359
      then ((d * 100 + 23) * 100 + 59) * 100 + 59
      else (d * 100 + 23) * 100 + 59)
      = ((d * 100 + 23) * 100 + 59) * 100 + 59 := if_pos ⟨by omega, by omega⟩
  simp only [e3]
  omega

/-- Witness for `c7_until` at `d = 20250101`. -/
theorem c7_until_witness :
    untilVersion 20250101 = 20250101235959 :=
  (c7_until 20250101 (by decide) (by decide)).1

/-- **C6.** When the journal reader encounters a `c` (transaction head)
block whose 8-byte payload is negative ("Incomplete transaction ignored"),
it stops reading at that block's offset and returns, leaving in memory
exactly the `ht`, `dt`, `ver` state built from the prior blocks (prior
snapshots remain usable); the error counter is not incremented. -/
theorem c6_incomplete (version fuel : ℕ) (st : RState) (bo pos : ℕ)
    (fdate : ℕ) (os : List ℕ) (ext : ℕ) (rest : List PBlock)
    (hf1 : 19000000000000 ≤ fdate) (hf2 : fdate < 30000000000000)
    (hos : os.length = 8) (hneg : btol os < 0)
    (hbreak : (if version < 19000000000000 then decide (version < st.ver.length)
               else decide (version < fdate)) = false) :
    (readLoop version (fuel + 1) st bo pos (.cB fdate os ext :: rest))
      = ({ st with dataOffset := pos + ext - 1 + 1 }, bo) := by
  simp only [readLoop, PBlock.ext]
  rw [if_pos ⟨hf1, hf2⟩]
  simp only [hbreak, hos, hneg]
  simp [hneg, PBlock.ext]

/-- Witness for `c6_incomplete`: an archive whose only block is an unpatched
`c` head (payload `-1`, bytes `FF…FF`): the reader returns offset 0 with the
initial state (one dummy version, sentinel fragment). -/
theorem c6_incomplete_witness :
    (readLoop 9999999999999999 1 initRState 0 0
        [.cB 20250102000000 (List.replicate 8 255) 10])
      = ({ initRState with dataOffset := 0 + 10 - 1 + 1 }, 0) :=
  c6_incomplete 9999999999999999 0 initRState 0 0 20250102000000
    (List.replicate 8 255) 10 [] (by decide) (by decide) (by decide)
    (by decide) (by decide)

/-! ## Well-formed journaling archives and the fragment locator law (C4)

A transaction consists of a `c` head whose payload advertises the byte
length of the following `d` run, the `d` blocks themselves, and one `h`
block per `d` block carrying `bsize[4] (sha1[20] usize[4])…`
(src/zpaq.cpp:1942-1967).  The byte-level framing lives in libzpaq
(outside src/); Modelled from the spec: a block's archive offset is
`in.tell()+1` after the `c` block plus the advertised compressed sizes of
the preceding `d` blocks of the same transaction — exactly the reader's
`data_offset` accounting and the offsets `extract` seeks to
(src/zpaq.cpp:1912, 1967, 4406). -/

/-- One `d` block and its `h` fragment table: advertised compressed size,
`(sha1, usize)` tuples, and the `h` block's own extent in the archive. -/
structure TxH where
  bsize : ℕ
  tuples : List (List ℕ × ℕ)
  hext : ℕ
  deriving Repr, DecidableEq

/-- One transaction: `c` head date and extent, then the `d`/`h` pairs. -/
structure Tx where
  fdate : ℕ
  cext : ℕ
  hs : List TxH
  deriving Repr, DecidableEq

def sumB (hs : List TxH) : ℕ := (hs.map TxH.bsize).sum

def sumHExt (hs : List TxH) : ℕ := (hs.map TxH.hext).sum

def txFrags (hs : List TxH) : ℕ := (hs.map (fun h => h.tuples.length)).sum

/-- Payload of an `h` block: `bsize[4]` then the 24-byte tuples. -/
def hOs (bsize : ℕ) (tuples : List (List ℕ × ℕ)) : List ℕ :=
  itob bsize ++ (tuples.map (fun t => t.1 ++ itob t.2)).flatten

/-- The `h` blocks of a transaction, with fragment numbering chained from
`n0` (each block's `num` is the fragment count before it). -/
def txHBlocks (n0 : ℕ) : List TxH → List PBlock
  | [] => []
  | h :: rest =>
    .hB n0 (hOs h.bsize h.tuples) h.hext :: txHBlocks (n0 + h.tuples.length) rest

/-- All blocks of a transaction in archive order. -/
def txBlocks (n0 : ℕ) (tx : Tx) : List PBlock :=
  .cB tx.fdate (ltob (sumB tx.hs)) tx.cext ::
    (tx.hs.map (fun h => .dB h.bsize) ++ txHBlocks n0 tx.hs)

/-- All blocks of an archive of transactions, chaining fragment counts. -/
def archBlocks : ℕ → List Tx → List PBlock
  | _, [] => []
  | n0, tx :: rest => txBlocks n0 tx ++ archBlocks (n0 + txFrags tx.hs) rest

/-- Ground truth: the `HT` entries a well-formed `h` block should create,
starting at in-block fragment position `i` with the block's `d` offset
`dataOff`. -/
def hEntries (dataOff : ℕ) : ℕ → List (List ℕ × ℕ) → List HT
  | _, [] => []
  | i, t :: rest =>
    ⟨t.1, (t.2 : ℤ), if i = 0 then (dataOff : ℤ) else -(i : ℤ)⟩ ::
      hEntries dataOff (i + 1) rest

/-- Ground truth entries for a run of `d`/`h` pairs whose first `d` block
sits at archive offset `off`. -/
def txEntriesGo (off : ℕ) : List TxH → List HT
  | [] => []
  | h :: rest => hEntries off 0 h.tuples ++ txEntriesGo (off + h.bsize) rest

/-- Archive position of the block after transaction `tx` starting at `pos`. -/
def txEndPos (pos : ℕ) (tx : Tx) : ℕ :=
  pos + tx.cext + sumB tx.hs + sumHExt tx.hs

/-- Ground truth entries of a whole archive starting at position `pos`. -/
def archEntries : ℕ → List Tx → List HT
  | _, [] => []
  | pos, tx :: rest =>
    txEntriesGo (pos + tx.cext) tx.hs ++ archEntries (txEndPos pos tx) rest

/-- Well-formedness of one `d`/`h` pair. -/
def THWF (h : TxH) : Prop :=
  1 ≤ h.bsize ∧ h.bsize < 2^32 ∧ 1 ≤ h.hext ∧
  ∀ t ∈ h.tuples, t.1.length = 20 ∧ t.2 < 2^31

/-- Well-formedness of one transaction. -/
def TxWF (tx : Tx) : Prop :=
  19000000000000 ≤ tx.fdate ∧ tx.fdate < 30000000000000 ∧ 1 ≤ tx.cext ∧
  sumB tx.hs < 2^63 ∧ ∀ h ∈ tx.hs, THWF h

/-- The source's default `version` (no `-until` given): `9999999999999999`. -/
def NOVERSION : ℕ := 9999999999999999

theorem btoiS_itob (u : ℕ) (hu : u < 2^31) : btoiS (itob u) = u := by
  unfold btoiS
  rw [btoiU_itob u (by omega), if_pos hu]

theorem hOs_length (bsize : ℕ) (tuples : List (List ℕ × ℕ))
    (hsha : ∀ t ∈ tuples, t.1.length = 20) :
    (hOs bsize tuples).length = 4 + 24 * tuples.length := by
  unfold hOs
  rw [List.length_append]
  have : ((tuples.map (fun t => t.1 ++ itob t.2)).flatten).length
      = 24 * tuples.length := by
    induction tuples with
    | nil => simp
    | cons t rest ih =>
      simp only [List.map_cons, List.flatten_cons, List.length_append,
        List.length_cons]
      rw [ih (fun x hx => hsha x (by simp [hx]))]
      have := hsha t (by simp)
      simp only [List.length_append, this, itob, List.length_cons,
        List.length_nil]
      ring
  rw [this]
  rfl

/-- The 24-byte tuple area of an `h` payload. -/
def tupleBytes (tuples : List (List ℕ × ℕ)) : List ℕ :=
  (tuples.map (fun t => t.1 ++ itob t.2)).flatten

theorem hOs_drop (bsize : ℕ) (tuples : List (List ℕ × ℕ)) :
    (hOs bsize tuples).drop 4 = tupleBytes tuples := by
  unfold hOs tupleBytes itob
  rw [List.drop_append_of_le_length (by simp)]
  simp

theorem set_append_last {α : Type} (l : List α) (d e : α) :
    (l ++ [d]).set l.length e = l ++ [e] := by
  induction l with
  | nil => rfl
  | cons x r ih => simpa using ih

theorem getD_append_last (l : List HT) (d : HT) :
    (l ++ [d]).getD l.length default = d := by
  rw [List.getD_eq_getElem?_getD, List.getElem?_append_right le_rfl]
  simp

theorem hLoop_spec : ∀ (suf : List (List ℕ × ℕ)) (i : ℕ) (ht : List HT)
    (os : List ℕ) (num dataOff : ℕ),
    ht.length = num + i →
    os.drop (4 + 24 * i) = tupleBytes suf →
    (∀ t ∈ suf, t.1.length = 20 ∧ t.2 < 2^31) →
    hLoop os num dataOff suf.length i ht = (ht ++ hEntries dataOff i suf, false) := by
  intro suf
  induction suf with
  | nil =>
    intro i ht os num dataOff hlen hdrop hwf
    simp [hLoop, hEntries]
  | cons t rest ih =>
    intro i ht os num dataOff hlen hdrop hwf
    have hw := hwf t (by simp)
    have hpad : num + i + 1 - ht.length = 1 := by omega
    have hsh : (os.drop (4 + 24 * i)).take 20 = t.1 := by
      rw [hdrop]
      unfold tupleBytes
      simp only [List.map_cons, List.flatten_cons, List.append_assoc]
      rw [List.take_append_of_le_length (le_of_eq hw.1.symm), List.take_of_length_le (le_of_eq hw.1)]
    have hdrop20 : os.drop (24 + 24 * i) = itob t.2 ++ tupleBytes rest := by
      have : os.drop (24 + 24 * i) = (os.drop (4 + 24 * i)).drop 20 := by
        rw [List.drop_drop]
        congr 1
        omega
      rw [this, hdrop]
      unfold tupleBytes
      simp only [List.map_cons, List.flatten_cons, List.append_assoc]
      rw [List.drop_append_of_le_length (le_of_eq hw.1.symm),
        List.drop_of_length_le (le_of_eq hw.1)]
      rfl
    have husz : btoiS ((os.drop (24 + 24 * i)).take 4) = (t.2 : ℤ) := by
      rw [hdrop20, List.take_append_of_le_length (by simp [itob]),
        List.take_of_length_le (by simp [itob])]
      exact btoiS_itob t.2 hw.2
    have hdrop24 : os.drop (4 + 24 * (i + 1)) = tupleBytes rest := by
      have : os.drop (4 + 24 * (i + 1)) = (os.drop (24 + 24 * i)).drop 4 := by
        rw [List.drop_drop]
        congr 1
        omega
      rw [this, hdrop20, List.drop_append_of_le_length (by simp [itob])]
      simp [itob]
    show hLoop os num dataOff (rest.length + 1) i ht = _
    rw [hLoop]
    simp only [hlen]
    have hone : num + i + 1 - (num + i) = 1 := by omega
    rw [hone, List.replicate_one]
    have hcur : (ht ++ [default]).getD (num + i) default = default := by
      rw [← hlen]; exact getD_append_last ht default
    rw [hcur]
    have hcs : ¬ ((default : HT).csize ≠ HT_BAD) := by decide
    rw [if_neg hcs]
    have hset : (ht ++ [default]).set (num + i)
        (⟨(os.drop (4 + 24 * i)).take 20,
          btoiS ((os.drop (24 + 24 * i)).take 4),
          if i = 0 then (dataOff : ℤ) else -(i : ℤ)⟩ : HT)
        = ht ++ [⟨t.1, (t.2 : ℤ), if i = 0 then (dataOff : ℤ) else -(i : ℤ)⟩] := by
      rw [hsh, husz, ← hlen]
      exact set_append_last ht default _
    rw [hset]
    rw [ih (i + 1) _ os num dataOff (by simp; omega) hdrop24
      (fun x hx => hwf x (by simp [hx]))]
    simp [hEntries]

theorem skip_drun (bsizes : List ℕ) : ∀ (rest : List PBlock) (p : ℕ),
    (∀ b ∈ bsizes, 1 ≤ b) → 1 ≤ p →
    skipBlocks (bsizes.map PBlock.dB ++ rest) p (p - 1 + bsizes.sum)
      = (rest, p + bsizes.sum) := by
  induction bsizes with
  | nil =>
    intro rest p _ hp
    cases rest with
    | nil => simp [skipBlocks]
    | cons b r =>
      simp only [List.map_nil, List.nil_append, List.sum_nil, Nat.add_zero]
      rw [skipBlocks, if_neg (by omega)]
  | cons b bs ih =>
    intro rest p hb hp
    simp only [List.map_cons, List.cons_append, List.sum_cons]
    rw [skipBlocks, if_pos (by
      have : 1 ≤ b := hb b (by simp)
      omega)]
    have harr : p - 1 + (b + bs.sum) = (p + (PBlock.dB b).ext) - 1 + bs.sum := by
      simp only [PBlock.ext]
      omega
    rw [harr, ih rest (p + (PBlock.dB b).ext)
      (fun x hx => hb x (by simp [hx])) (by simp only [PBlock.ext]; omega)]
    simp only [PBlock.ext, Nat.add_assoc]

/-- `block_offset` after processing a run of `h` blocks starting at `pos`. -/
def hRunBo (bo pos : ℕ) : List TxH → ℕ
  | [] => bo
  | hs => pos + sumHExt hs - 1

theorem hEntries_length (tuples : List (List ℕ × ℕ)) : ∀ (off i : ℕ),
    (hEntries off i tuples).length = tuples.length := by
  induction tuples with
  | nil => intro off i; rfl
  | cons t r ih => intro off i; simp [hEntries, ih]

theorem txEntriesGo_length (hs : List TxH) : ∀ off,
    (txEntriesGo off hs).length = txFrags hs := by
  induction hs with
  | nil => intro off; rfl
  | cons h r ih =>
    intro off
    simp only [txEntriesGo, txFrags, List.map_cons, List.sum_cons,
      List.length_append, hEntries_length]
    have := ih (off + h.bsize)
    simp only [txFrags] at this
    omega

theorem hRun_spec (hs : List TxH) : ∀ (st : RState) (bo pos fuel : ℕ)
    (rest : List PBlock),
    (∀ h ∈ hs, THWF h) → 1 ≤ st.ht.length →
    readLoop NOVERSION (fuel + hs.length) st bo pos
        (txHBlocks st.ht.length hs ++ rest)
      = readLoop NOVERSION fuel
          { st with ht := st.ht ++ txEntriesGo st.dataOffset hs,
                    dataOffset := st.dataOffset + sumB hs }
          (hRunBo bo pos hs) (pos + sumHExt hs) rest := by
  induction hs with
  | nil =>
    intro st bo pos fuel rest _ _
    simp only [txHBlocks, List.nil_append, txEntriesGo, sumB, sumHExt,
      List.map_nil, List.sum_nil, Nat.add_zero, List.append_nil, hRunBo,
      List.length_nil]
  | cons h hs ih =>
    intro st bo pos fuel rest hwf hht
    have hw := hwf h (by simp)
    obtain ⟨hb1, hb2, hx1, htup⟩ := hw
    have hoslen : (hOs h.bsize h.tuples).length = 4 + 24 * h.tuples.length :=
      hOs_length h.bsize h.tuples (fun t ht => (htup t ht).1)
    have hn : ((hOs h.bsize h.tuples).length - 4) / 24 = h.tuples.length := by
      rw [hoslen]; omega
    have hbsz : btoiU ((hOs h.bsize h.tuples).take 4) = h.bsize := by
      unfold hOs
      rw [List.take_append_of_le_length (by simp [itob]),
        List.take_of_length_le (by simp [itob])]
      exact btoiU_itob h.bsize hb2
    have hloop := hLoop_spec h.tuples 0 st.ht (hOs h.bsize h.tuples)
      st.ht.length st.dataOffset (by omega) (by simpa using hOs_drop h.bsize h.tuples)
      htup
    show readLoop NOVERSION (fuel + (hs.length + 1)) st bo pos
        (.hB st.ht.length (hOs h.bsize h.tuples) h.hext ::
          (txHBlocks (st.ht.length + h.tuples.length) hs ++ rest)) = _
    have hfuel : fuel + (hs.length + 1) = (fuel + hs.length) + 1 := by omega
    rw [hfuel]
    simp only [readLoop, PBlock.ext]
    rw [if_pos (⟨by omega, by rw [hoslen]; omega⟩ :
      0 < st.ht.length ∧ 4 ≤ (hOs h.bsize h.tuples).length)]
    rw [if_neg (show ¬ (st.ht.length ≠ st.ht.length) by simp)]
    simp only [hn, hbsz, hloop, Bool.false_eq_true, if_false]
    have hht2 : (st.ht ++ hEntries st.dataOffset 0 h.tuples).length
        = st.ht.length + h.tuples.length := by
      simp [List.length_append, hEntries_length]
    rw [← hht2]
    have hih := ih ⟨st.ht ++ hEntries st.dataOffset 0 h.tuples, st.dt, st.ver,
        st.dataOffset + h.bsize, st.isErr, st.errors⟩
        (pos + h.hext - 1) (pos + h.hext) fuel rest
        (fun x hx => hwf x (by simp [hx])) (by simp only [hht2]; omega)
    simp only at hih
    rw [hih]
    have e1 : st.ht ++ hEntries st.dataOffset 0 h.tuples ++
        txEntriesGo (st.dataOffset + h.bsize) hs
        = st.ht ++ txEntriesGo st.dataOffset (h :: hs) := by
      rw [List.append_assoc]
      rfl
    have e2 : st.dataOffset + h.bsize + sumB hs
        = st.dataOffset + sumB (h :: hs) := by
      simp only [sumB, List.map_cons, List.sum_cons]
      omega
    have e3 : hRunBo (pos + h.hext - 1) (pos + h.hext) hs
        = hRunBo bo pos (h :: hs) := by
      cases hs with
      | nil => simp [hRunBo, sumHExt]
      | cons h2 r2 =>
        simp only [hRunBo, sumHExt, List.map_cons, List.sum_cons]
        omega
    have e4 : pos + h.hext + sumHExt hs = pos + sumHExt (h :: hs) := by
      simp only [sumHExt, List.map_cons, List.sum_cons]
      omega
    rw [e1, e2, e3, e4]

theorem tx_step (tx : Tx) (st : RState) (bo pos fuel : ℕ) (rest : List PBlock)
    (hwf : TxWF tx) (hht : 1 ≤ st.ht.length) :
    readLoop NOVERSION (fuel + (1 + tx.hs.length)) st bo pos
        (txBlocks st.ht.length tx ++ rest)
      = readLoop NOVERSION fuel
          ⟨st.ht ++ txEntriesGo (pos + tx.cext) tx.hs, st.dt,
           st.ver ++ [⟨tx.fdate, 0, bo, 0, 0, st.ht.length⟩],
           pos + tx.cext + sumB tx.hs, st.isErr, st.errors⟩
          (hRunBo (pos + tx.cext - 1) (pos + tx.cext + sumB tx.hs) tx.hs)
          (txEndPos pos tx) rest := by
  obtain ⟨hf1, hf2, hc1, hsum, hhs⟩ := hwf
  have hfuel : fuel + (1 + tx.hs.length) = (fuel + tx.hs.length) + 1 := by omega
  have hoslen : (ltob (sumB tx.hs)).length = 8 := by simp [ltob]
  have hjmp : btol (ltob (sumB tx.hs)) = (sumB tx.hs : ℤ) :=
    btol_ltob (sumB tx.hs) hsum
  show readLoop NOVERSION (fuel + (1 + tx.hs.length)) st bo pos
      (.cB tx.fdate (ltob (sumB tx.hs)) tx.cext ::
        ((tx.hs.map (fun h => .dB h.bsize) ++ txHBlocks st.ht.length tx.hs)
          ++ rest)) = _
  rw [hfuel]
  simp only [readLoop, PBlock.ext]
  rw [if_pos (⟨hf1, hf2⟩ : 19000000000000 ≤ tx.fdate ∧ tx.fdate < 30000000000000)]
  have hnover : ¬ (NOVERSION < 19000000000000) := by unfold NOVERSION; omega
  rw [if_neg hnover]
  have hbrk : decide (NOVERSION < tx.fdate) = false := by
    apply decide_eq_false
    unfold NOVERSION
    omega
  have hneg : ¬ ((sumB tx.hs : ℤ) < 0) := by omega
  have hdecneg : decide ((sumB tx.hs : ℤ) < 0) = false := decide_eq_false hneg
  have htell : pos + tx.cext - 1 + 1 = pos + tx.cext := by omega
  simp only [hbrk, hoslen, hjmp]
  simp only [Bool.false_eq_true, not_false_eq_true, true_and, if_pos,
    eq_self_iff_true, if_true, hdecneg, Bool.and_false, Bool.or_false,
    Bool.false_or, ne_eq, not_true_eq_false, if_false, htell, decide_True,
    Bool.true_and]
  rcases Nat.eq_zero_or_pos (sumB tx.hs) with hz | hpos
  · have hnil : tx.hs = [] := by
      cases hhs2 : tx.hs with
      | nil => rfl
      | cons h r =>
        have := hhs h (by rw [hhs2]; simp)
        unfold THWF at this
        rw [hhs2] at hz
        simp only [sumB, List.map_cons, List.sum_cons] at hz
        omega
    rw [if_neg (show ¬ (0 < (sumB tx.hs : ℤ)) by omega)]
    simp only [hnil, txHBlocks, List.map_nil, List.nil_append, txEntriesGo,
      List.append_nil, sumB, sumHExt, List.sum_nil, Nat.add_zero, hRunBo,
      txEndPos, List.length_nil]
    simp [hnil, sumB, sumHExt, txEndPos]
  · rw [if_pos (show 0 < (sumB tx.hs : ℤ) by omega)]
    have htn : ((sumB tx.hs : ℤ)).toNat = sumB tx.hs := Int.toNat_natCast _
    simp only [htn]
    rw [List.append_assoc]
    have hmap : tx.hs.map (fun h => PBlock.dB h.bsize)
        = (tx.hs.map TxH.bsize).map PBlock.dB := by
      rw [List.map_map]
      rfl
    rw [hmap]
    have hskip : skipBlocks
        ((tx.hs.map TxH.bsize).map PBlock.dB ++ (txHBlocks st.ht.length tx.hs ++ rest))
        (pos + tx.cext) (pos + tx.cext - 1 + sumB tx.hs)
        = (txHBlocks st.ht.length tx.hs ++ rest, pos + tx.cext + sumB tx.hs) :=
      skip_drun (tx.hs.map TxH.bsize) (txHBlocks st.ht.length tx.hs ++ rest)
        (pos + tx.cext)
        (by intro b hb
            obtain ⟨h, hh, rfl⟩ := List.mem_map.mp hb
            exact (hhs h hh).1)
        (by omega)
    rw [hskip]
    dsimp only
    have hh := hRun_spec tx.hs
      ⟨st.ht, st.dt, st.ver ++ [⟨tx.fdate, 0, bo, 0, 0, st.ht.length⟩],
       pos + tx.cext, st.isErr, st.errors⟩
      (pos + tx.cext - 1) (pos + tx.cext + sumB tx.hs) fuel rest
      hhs (by simpa using hht)
    simp only at hh
    rw [hh]
    rfl

/-- Fuel consumed by the reader on an archive: one step per `c` and `h`
block (a `c` block's seek skips the whole `d` run in one step). -/
def archFuel : List Tx → ℕ
  | [] => 0
  | tx :: rest => 1 + tx.hs.length + archFuel rest

theorem arch_spec : ∀ (txs : List Tx) (st : RState) (bo pos fuel : ℕ),
    (∀ tx ∈ txs, TxWF tx) → 1 ≤ st.ht.length →
    ∃ d v bo2,
      readLoop NOVERSION (fuel + archFuel txs) st bo pos
          (archBlocks st.ht.length txs)
        = (⟨st.ht ++ archEntries pos txs, st.dt, st.ver ++ v, d,
            st.isErr, st.errors⟩, bo2) := by
  intro txs
  induction txs with
  | nil =>
    intro st bo pos fuel _ _
    refine ⟨st.dataOffset, [], bo, ?_⟩
    rcases fuel with _ | f <;>
      simp [readLoop, archFuel, archBlocks, archEntries]
  | cons tx rest ih =>
    intro st bo pos fuel hwf hht
    have hfuel : fuel + archFuel (tx :: rest)
        = (fuel + archFuel rest) + (1 + tx.hs.length) := by
      simp only [archFuel]
      omega
    show ∃ d v bo2, readLoop NOVERSION _ st bo pos
        (txBlocks st.ht.length tx ++ archBlocks (st.ht.length + txFrags tx.hs) rest)
        = _
    rw [hfuel, tx_step tx st bo pos (fuel + archFuel rest) _
      (hwf tx (by simp)) hht]
    have hlen : (st.ht ++ txEntriesGo (pos + tx.cext) tx.hs).length
        = st.ht.length + txFrags tx.hs := by
      simp [List.length_append, txEntriesGo_length]
    obtain ⟨d, v, bo2, hrec⟩ := ih
      ⟨st.ht ++ txEntriesGo (pos + tx.cext) tx.hs, st.dt,
       st.ver ++ [⟨tx.fdate, 0, bo, 0, 0, st.ht.length⟩],
       pos + tx.cext + sumB tx.hs, st.isErr, st.errors⟩
      (hRunBo (pos + tx.cext - 1) (pos + tx.cext + sumB tx.hs) tx.hs)
      (txEndPos pos tx) fuel
      (fun x hx => hwf x (by simp [hx])) (by simp [List.length_append]; omega)
    simp only at hrec
    rw [← hlen]
    rw [hrec]
    refine ⟨d, ⟨tx.fdate, 0, bo, 0, 0, st.ht.length⟩ :: v, bo2, ?_⟩
    simp [archEntries, List.append_assoc]

def locLaw (l : List HT) : Prop :=
  ∀ j, j < l.length →
    0 < (l.getD j default).csize ∨
    ∃ i, 1 ≤ i ∧ i ≤ j ∧ (l.getD j default).csize = -(i : ℤ) ∧
      0 < (l.getD (j - i) default).csize

theorem locLaw_append (a b : List HT) (ha : locLaw a) (hb : locLaw b) :
    locLaw (a ++ b) := by
  intro j hj
  rw [List.length_append] at hj
  rcases Nat.lt_or_ge j a.length with hja | hja
  · have hga : (a ++ b).getD j default = a.getD j default := by
      rw [List.getD_eq_getElem?_getD, List.getD_eq_getElem?_getD,
        List.getElem?_append_left hja]
    rcases ha j hja with hpos | ⟨i, hi1, hi2, hi3, hi4⟩
    · left; rw [hga]; exact hpos
    · right
      refine ⟨i, hi1, hi2, by rw [hga]; exact hi3, ?_⟩
      have : (a ++ b).getD (j - i) default = a.getD (j - i) default := by
        rw [List.getD_eq_getElem?_getD, List.getD_eq_getElem?_getD,
          List.getElem?_append_left (by omega)]
      rw [this]; exact hi4
  · have hgb : (a ++ b).getD j default = b.getD (j - a.length) default := by
      rw [List.getD_eq_getElem?_getD, List.getD_eq_getElem?_getD,
        List.getElem?_append_right hja]
    rcases hb (j - a.length) (by omega) with hpos | ⟨i, hi1, hi2, hi3, hi4⟩
    · left; rw [hgb]; exact hpos
    · right
      refine ⟨i, hi1, by omega, by rw [hgb]; exact hi3, ?_⟩
      have : (a ++ b).getD (j - i) default = b.getD (j - i - a.length) default := by
        rw [List.getD_eq_getElem?_getD, List.getD_eq_getElem?_getD,
          List.getElem?_append_right (by omega)]
      rw [this]
      have : j - i - a.length = j - a.length - i := by omega
      rw [this]
      exact hi4

theorem hEntries_getD (tuples : List (List ℕ × ℕ)) : ∀ (i j off : ℕ),
    j < tuples.length →
    (hEntries off i tuples).getD j default
      = ⟨(tuples.getD j ([], 0)).1, ((tuples.getD j ([], 0)).2 : ℤ),
         if i + j = 0 then (off : ℤ) else -((i + j : ℕ) : ℤ)⟩ := by
  induction tuples with
  | nil => intro i j off hj; simp at hj
  | cons t rest ih =>
    intro i j off hj
    cases j with
    | zero => simp [hEntries]
    | succ j' =>
      simp only [hEntries, List.getD_cons_succ]
      rw [ih (i + 1) j' off (by simpa using Nat.lt_of_succ_lt_succ hj)]
      have : i + 1 + j' = i + (j' + 1) := by omega
      rw [this]

theorem locLaw_hEntries (off : ℕ) (hoff : 1 ≤ off)
    (tuples : List (List ℕ × ℕ)) : locLaw (hEntries off 0 tuples) := by
  intro j hj
  rw [hEntries_length] at hj
  rw [hEntries_getD tuples 0 j off hj]
  cases j with
  | zero =>
    left
    rw [if_pos (show (0:ℕ) + 0 = 0 from rfl)]
    show (0:ℤ) < (off : ℤ)
    exact_mod_cast hoff
  | succ j' =>
    right
    refine ⟨j' + 1, by omega, le_rfl, ?_, ?_⟩
    · simp
    · rw [Nat.sub_self, hEntries_getD tuples 0 0 off (by omega)]
      rw [if_pos (show (0:ℕ) + 0 = 0 from rfl)]
      show (0:ℤ) < (off : ℤ)
      exact_mod_cast hoff

theorem locLaw_txEntriesGo (hs : List TxH) : ∀ off, 1 ≤ off →
    locLaw (txEntriesGo off hs) := by
  induction hs with
  | nil => intro off _ j hj; simp [txEntriesGo] at hj
  | cons h rest ih =>
    intro off hoff
    exact locLaw_append _ _ (locLaw_hEntries off hoff h.tuples)
      (ih (off + h.bsize) (by omega))

theorem locLaw_archEntries (txs : List Tx) : ∀ pos,
    (∀ tx ∈ txs, TxWF tx) → locLaw (archEntries pos txs) := by
  induction txs with
  | nil => intro pos _ j hj; simp [archEntries] at hj
  | cons tx rest ih =>
    intro pos hwf
    have hc := (hwf tx (by simp)).2.2.1
    exact locLaw_append _ _
      (locLaw_txEntriesGo tx.hs (pos + tx.cext) (by omega))
      (ih (txEndPos pos tx) (fun x hx => hwf x (by simp [hx])))

theorem txHBlocks_length (hs : List TxH) : ∀ n0,
    (txHBlocks n0 hs).length = hs.length := by
  induction hs with
  | nil => intro n0; rfl
  | cons h rest ih => intro n0; simp [txHBlocks, ih]

theorem archFuel_le (txs : List Tx) : ∀ n0,
    archFuel txs ≤ (archBlocks n0 txs).length := by
  induction txs with
  | nil => intro n0; simp [archFuel, archBlocks]
  | cons tx rest ih =>
    intro n0
    simp only [archFuel, archBlocks, txBlocks, List.length_append,
      List.length_cons, List.length_map, txHBlocks_length]
    have := ih (n0 + txFrags tx.hs)
    omega

/-- **C4.** After `read_archive` completes without errors on a (well-formed)
journaling archive, `ht` is the sentinel followed by exactly the
ground-truth entries: each fragment's locator is either the archive offset
of the `d` block containing it (positive, on the block's first fragment) or
`-i` with `i ≥ 1` such that `HT[k-i].csize > 0` (the first fragment of the
same block carries the absolute offset). -/
theorem c4_locator_law (txs : List Tx) (hwf : ∀ tx ∈ txs, TxWF tx) :
    (readArchiveBlocks NOVERSION (archBlocks 1 txs)).1.errors = 0 ∧
    (readArchiveBlocks NOVERSION (archBlocks 1 txs)).1.isErr = false ∧
    (readArchiveBlocks NOVERSION (archBlocks 1 txs)).1.ht
      = default :: archEntries 0 txs ∧
    ∀ k, 1 ≤ k →
      k < (readArchiveBlocks NOVERSION (archBlocks 1 txs)).1.ht.length →
      0 < ((readArchiveBlocks NOVERSION
              (archBlocks 1 txs)).1.ht.getD k default).csize ∨
      ∃ i, 1 ≤ i ∧ i ≤ k - 1 ∧
        ((readArchiveBlocks NOVERSION
            (archBlocks 1 txs)).1.ht.getD k default).csize = -(i : ℤ) ∧
        0 < ((readArchiveBlocks NOVERSION
            (archBlocks 1 txs)).1.ht.getD (k - i) default).csize := by
  have hfe : (archBlocks 1 txs).length + 1
      = ((archBlocks 1 txs).length + 1 - archFuel txs) + archFuel txs := by
    have := archFuel_le txs 1
    omega
  have harch := arch_spec txs initRState 0 0
    ((archBlocks 1 txs).length + 1 - archFuel txs) hwf (by decide)
  obtain ⟨d, v, bo2, harch⟩ := harch
  have hread : readArchiveBlocks NOVERSION (archBlocks 1 txs)
      = (⟨[default] ++ archEntries 0 txs, [], [⟨0, 0, 0, 0, 0, 0⟩] ++ v, d,
          false, 0⟩, bo2) := by
    unfold readArchiveBlocks
    rw [hfe]
    exact harch
  rw [hread]
  have hlaw := locLaw_archEntries txs 0 hwf
  refine ⟨rfl, rfl, rfl, ?_⟩
  intro k hk1 hk2
  simp only [List.singleton_append, List.length_cons] at hk2 ⊢
  obtain ⟨m, rfl⟩ : ∃ m, k = m + 1 := ⟨k - 1, by omega⟩
  rw [List.getD_cons_succ]
  rcases hlaw m (by omega) with hpos | ⟨i, hi1, hi2, hi3, hi4⟩
  · left; exact hpos
  · right
    refine ⟨i, hi1, by omega, hi3, ?_⟩
    have hsub : m + 1 - i = (m - i) + 1 := by omega
    rw [hsub, List.getD_cons_succ]
    exact hi4

/-- Witness for `c4_locator_law`: a one-transaction archive whose single
`d` block (compressed size 7) holds one fragment of size 3; the fragment's
locator is the block's offset 5 (the `c` block occupies bytes 0..4). -/
theorem c4_locator_law_witness :
    (readArchiveBlocks NOVERSION (archBlocks 1
        [⟨20250101000000, 5, [⟨7, [(List.replicate 20 1, 3)], 4⟩]⟩])).1.errors = 0 ∧
    (readArchiveBlocks NOVERSION (archBlocks 1
        [⟨20250101000000, 5, [⟨7, [(List.replicate 20 1, 3)], 4⟩]⟩])).1.ht
      = [default, ⟨List.replicate 20 1, 3, 5⟩] := by
  have h := c4_locator_law
    [⟨20250101000000, 5, [⟨7, [(List.replicate 20 1, 3)], 4⟩]⟩]
    (by intro tx htx
        simp only [List.mem_singleton] at htx
        subst htx
        refine ⟨by decide, by decide, by decide, by decide, ?_⟩
        intro hh hhh
        simp only [List.mem_singleton] at hhh
        subst hhh
        refine ⟨by decide, by decide, by decide, ?_⟩
        intro t htt
        simp only [List.mem_singleton] at htt
        subst htt
        exact ⟨by decide, by decide⟩)
  refine ⟨h.1, ?_⟩
  rw [h.2.2.1]
  decide


/- **Snapshot dates (C5).** The calendar conversions `decimal_time`
(src/zpaq.cpp:785-806) and `unix_time` (src/zpaq.cpp:809-822), and the
date adjustment in `Jidac::add` (src/zpaq.cpp:3929-3936), carried out over
`Nat` (the source's `int64_t` values are nonnegative on the dates of
interest). -/

set_option maxRecDepth 2000

/-- The three `t+=(t>=...)` insertions of `decimal_time`
(src/zpaq.cpp:793-795) on the day number `r` within a 4-year term. -/
def eIns (r : ℕ) : ℕ :=
  let t3 := r + (if 59 ≤ r then 1 else 0)
  let t4 := t3 + (if 425 ≤ t3 then 1 else 0)
  t4 + (if 1157 ≤ t4 then 1 else 0)

/-- `t/366` after the insertions: years into the 4-year term
(src/zpaq.cpp:796). -/
def eOf (r : ℕ) : ℕ := eIns r / 366

/-- The five month-padding insertions of `decimal_time`
(src/zpaq.cpp:798-802). -/
def mdIns (u : ℕ) : ℕ :=
  let t7 := u + (if 60 ≤ u then 2 else 0)
  let t8 := t7 + (if 123 ≤ t7 then 1 else 0)
  let t9 := t8 + (if 185 ≤ t8 then 1 else 0)
  let t10 := t9 + (if 278 ≤ t9 then 1 else 0)
  t10 + (if 340 ≤ t10 then 1 else 0)

/-- `month = t/31+1` of `decimal_time` (src/zpaq.cpp:803). -/
def monthOf (r : ℕ) : ℕ := mdIns (eIns r % 366) / 31 + 1

/-- `day = t%31+1` of `decimal_time` (src/zpaq.cpp:804). -/
def dayOf (r : ℕ) : ℕ := mdIns (eIns r % 366) % 31 + 1

/-- The `days[12]` table of `unix_time` (src/zpaq.cpp:811). -/
def daysTab : ℕ → ℕ
  | 0 => 0 | 1 => 31 | 2 => 59 | 3 => 90 | 4 => 120 | 5 => 151
  | 6 => 181 | 7 => 212 | 8 => 243 | 9 => 273 | 10 => 304 | 11 => 334
  | _ => 0

/-- The facts about day `r` of a 4-year term that make `unix_time`
invert `decimal_time`: field ranges, and the day-count identity matching
the formula of src/zpaq.cpp:819-820. -/
def dayP (r : ℕ) : Prop :=
    monthOf r ≤ 12 ∧ 1 ≤ monthOf r ∧ dayOf r ≤ 31 ∧ 1 ≤ dayOf r ∧
    eOf r ≤ 3 ∧
    dayOf r - 1 + daysTab (monthOf r - 1)
      + (if (eOf r + 2) % 4 = 0 ∧ 1 < monthOf r - 1 then 1 else 0)
      + (eOf r * 1461 + 1) / 4 = r

instance (r : ℕ) : Decidable (dayP r) := by unfold dayP; infer_instance

theorem dayIdent_a : ∀ r < 400, dayP r := by decide
theorem dayIdent_b : ∀ r < 400, dayP (400 + r) := by decide
theorem dayIdent_c : ∀ r < 400, dayP (800 + r) := by decide
theorem dayIdent_d : ∀ r < 261, dayP (1200 + r) := by decide

theorem dayIdent : ∀ r < 1461, dayP r := by
  intro r hr
  rcases Nat.lt_or_ge r 400 with h | h
  · exact dayIdent_a r h
  rcases Nat.lt_or_ge r 800 with h2 | h2
  · have := dayIdent_b (r - 400) (by omega)
    have he : 400 + (r - 400) = r := by omega
    rwa [he] at this
  rcases Nat.lt_or_ge r 1200 with h3 | h3
  · have := dayIdent_c (r - 800) (by omega)
    have he : 800 + (r - 800) = r := by omega
    rwa [he] at this
  · have := dayIdent_d (r - 1200) (by omega)
    have he : 1200 + (r - 1200) = r := by omega
    rwa [he] at this

/-- Strict growth of the (year-in-term, month, day) triple from day `r`
to day `r+1` of a 4-year term. -/
def gP (r : ℕ) : Prop :=
    eOf r * 10000 + monthOf r * 100 + dayOf r
      < eOf (r + 1) * 10000 + monthOf (r + 1) * 100 + dayOf (r + 1)

instance (r : ℕ) : Decidable (gP r) := by unfold gP; infer_instance

theorem gStep_a : ∀ r < 400, gP r := by decide
theorem gStep_b : ∀ r < 400, gP (400 + r) := by decide
theorem gStep_c : ∀ r < 400, gP (800 + r) := by decide
theorem gStep_d : ∀ r < 260, gP (1200 + r) := by decide

theorem gStep : ∀ r < 1460, gP r := by
  intro r hr
  rcases Nat.lt_or_ge r 400 with h | h
  · exact gStep_a r h
  rcases Nat.lt_or_ge r 800 with h2 | h2
  · have := gStep_b (r - 400) (by omega)
    have he : 400 + (r - 400) = r := by omega
    rwa [he] at this
  rcases Nat.lt_or_ge r 1200 with h3 | h3
  · have := gStep_c (r - 800) (by omega)
    have he : 800 + (r - 800) = r := by omega
    rwa [he] at this
  · have := gStep_d (r - 1200) (by omega)
    have he : 1200 + (r - 1200) = r := by omega
    rwa [he] at this

theorem gBound : ∀ r < 1461,
    eOf r * 10000 + monthOf r * 100 + dayOf r < 40000 := by
  intro r hr
  have h := dayIdent r hr
  unfold dayP at h
  omega

theorem gWrap :
    eOf 1460 * 10000 + monthOf 1460 * 100 + dayOf 1460
      < 40000 + eOf 0 * 10000 + monthOf 0 * 100 + dayOf 0 := by decide

/-- `decimal_time` (src/zpaq.cpp:785-806): seconds since 1970 to decimal
`YYYYMMDDHHMMSS`. -/
def decimal_time (t : ℕ) : ℕ :=
  (t / 86400 / 1461 * 4 + eOf (t / 86400 % 1461) + 1970) * 10000000000
  + monthOf (t / 86400 % 1461) * 100000000
  + dayOf (t / 86400 % 1461) * 1000000
  + t / 3600 % 24 * 10000 + t / 60 % 60 * 100 + t % 60

/-- `unix_time` (src/zpaq.cpp:809-822): decimal date back to seconds
since 1970. -/
def unix_time (date : ℕ) : ℕ :=
  (date / 1000000 % 100 - 1 + daysTab ((date / 100000000 % 100 - 1) % 12)
    + (if date / 10000000000 % 10000 % 4 = 0
          ∧ 1 < (date / 100000000 % 100 - 1) % 12 then 1 else 0)
    + ((date / 10000000000 % 10000 - 1970) * 1461 + 1) / 4) * 86400
  + date / 10000 % 100 * 3600 + date / 100 % 100 * 60 + date % 100

/-- The `YYYYMMDD` part of `decimal_time` as a function of the day
number, shifted by 1970. -/
def dayC (d : ℕ) : ℕ :=
  (d / 1461 * 4 + eOf (d % 1461)) * 10000 + monthOf (d % 1461) * 100
    + dayOf (d % 1461)

theorem dayC_step (d : ℕ) : dayC d < dayC (d + 1) := by
  unfold dayC
  rcases Nat.lt_or_ge (d % 1461) 1460 with h | h
  · have h1 : (d + 1) / 1461 = d / 1461 := by omega
    have h2 : (d + 1) % 1461 = d % 1461 + 1 := by omega
    rw [h1, h2]
    have := gStep (d % 1461) h
    unfold gP at this
    omega
  · have hr : d % 1461 = 1460 := by omega
    have h1 : (d + 1) / 1461 = d / 1461 + 1 := by omega
    have h2 : (d + 1) % 1461 = 0 := by omega
    rw [h1, h2, hr]
    have := gWrap
    have hb := gBound 1460 (by omega)
    omega

theorem decimal_decomp (t : ℕ) :
    decimal_time t = dayC (t / 86400) * 1000000 + 19700000000000
      + (t / 3600 % 24 * 10000 + t / 60 % 60 * 100 + t % 60) := by
  unfold decimal_time dayC
  ring

theorem tod_lt (t : ℕ) :
    t / 3600 % 24 * 10000 + t / 60 % 60 * 100 + t % 60 < 1000000 := by
  have h1 : t / 3600 % 24 < 24 := Nat.mod_lt _ (by omega)
  have h2 : t / 60 % 60 < 60 := Nat.mod_lt _ (by omega)
  have h3 : t % 60 < 60 := Nat.mod_lt _ (by omega)
  omega

theorem decimal_succ_lt (t : ℕ) : decimal_time t < decimal_time (t + 1) := by
  rw [decimal_decomp, decimal_decomp]
  rcases Nat.lt_or_ge (t % 86400) 86399 with h | h
  · have hd : (t + 1) / 86400 = t / 86400 := by omega
    rw [hd]
    have htod : t / 3600 % 24 * 10000 + t / 60 % 60 * 100 + t % 60
        < (t + 1) / 3600 % 24 * 10000 + (t + 1) / 60 % 60 * 100 + (t + 1) % 60 := by
      omega
    omega
  · have hd : (t + 1) / 86400 = t / 86400 + 1 := by omega
    rw [hd]
    have := dayC_step (t / 86400)
    have h1 := tod_lt t
    have h2 := tod_lt (t + 1)
    omega


/-- Bound on the supported range of seconds (8000 years from 1970;   the
source documents validity to 2099, src/zpaq.cpp:784). -/
def SMAX : ℕ := 86400 * 1461 * 2000

theorem digits6 (Y M Dy hh mi s : ℕ) (hY : Y ≤ 9999) (hM : M ≤ 99)
    (hD : Dy ≤ 99) (hhh : hh ≤ 99) (hmi : mi ≤ 99) (hs : s ≤ 99) :
    (Y * 10000000000 + M * 100000000 + Dy * 1000000 + hh * 10000
        + mi * 100 + s) / 1000000 % 100 = Dy ∧
    (Y * 10000000000 + M * 100000000 + Dy * 1000000 + hh * 10000
        + mi * 100 + s) / 100000000 % 100 = M ∧
    (Y * 10000000000 + M * 100000000 + Dy * 1000000 + hh * 10000
        + mi * 100 + s) / 10000000000 % 10000 = Y ∧
    (Y * 10000000000 + M * 100000000 + Dy * 1000000 + hh * 10000
        + mi * 100 + s) / 10000 % 100 = hh ∧
    (Y * 10000000000 + M * 100000000 + Dy * 1000000 + hh * 10000
        + mi * 100 + s) / 100 % 100 = mi ∧
    (Y * 10000000000 + M * 100000000 + Dy * 1000000 + hh * 10000
        + mi * 100 + s) % 100 = s :=
  ⟨by omega, by omega, by omega, by omega, by omega, by omega⟩

theorem unixOfDigits (q r e M Dy hh mi s : ℕ)
    (he3 : e ≤ 3) (hm1 : 1 ≤ M) (hm12 : M ≤ 12) (hd1 : 1 ≤ Dy)
    (hd31 : Dy ≤ 31) (hq : q ≤ 1999) (hhh : hh ≤ 23) (hmi : mi ≤ 59)
    (hs : s ≤ 59)
    (hsum : Dy - 1 + daysTab (M - 1)
      + (if (e + 2) % 4 = 0 ∧ 1 < M - 1 then 1 else 0)
      + (e * 1461 + 1) / 4 = r) :
    unix_time ((q * 4 + e + 1970) * 10000000000 + M * 100000000
        + Dy * 1000000 + hh * 10000 + mi * 100 + s)
      = (q * 1461 + r) * 86400 + (hh * 3600 + mi * 60 + s) := by
  obtain ⟨e1, e2, e3, e4, e5, e6⟩ := digits6 (q * 4 + e + 1970) M Dy hh mi s
    (by omega) (by omega) (by omega) (by omega) (by omega) (by omega)
  unfold unix_time
  rw [e1, e2, e3, e4, e5, e6]
  clear e1 e2 e3 e4 e5 e6
  have hm12n : (M - 1) % 12 = M - 1 := by omega
  rw [hm12n]
  have hleap : ((q * 4 + e + 1970) % 4 = 0 ∧ 1 < M - 1)
      ↔ ((e + 2) % 4 = 0 ∧ 1 < M - 1) := by
    constructor
    · intro hx; exact ⟨by omega, hx.2⟩
    · intro hx; exact ⟨by omega, hx.2⟩
  simp only [hleap]
  have hquarter : ((q * 4 + e + 1970 - 1970) * 1461 + 1) / 4
      = q * 1461 + (e * 1461 + 1) / 4 := by omega
  rw [hquarter]
  omega

theorem unix_decimal_roundtrip (t : ℕ) (ht : t < SMAX) :
    unix_time (decimal_time t) = t := by
  have hday := dayIdent (t / 86400 % 1461) (Nat.mod_lt _ (by omega))
  unfold dayP at hday
  obtain ⟨hm12, hm1, hd31, hd1, he3, hsum⟩ := hday
  have hqb : t / 86400 / 1461 ≤ 1999 := by
    unfold SMAX at ht
    omega
  have hN : decimal_time t
      = (t / 86400 / 1461 * 4 + eOf (t / 86400 % 1461) + 1970) * 10000000000
        + monthOf (t / 86400 % 1461) * 100000000
        + dayOf (t / 86400 % 1461) * 1000000
        + t / 3600 % 24 * 10000 + t / 60 % 60 * 100 + t % 60 := rfl
  rw [hN]
  rw [unixOfDigits (t / 86400 / 1461) (t / 86400 % 1461)
    (eOf (t / 86400 % 1461)) (monthOf (t / 86400 % 1461))
    (dayOf (t / 86400 % 1461)) (t / 3600 % 24) (t / 60 % 60) (t % 60)
    he3 hm1 hm12 hd1 hd31 hqb (by omega) (by omega) (by omega) hsum]
  clear hN hsum ht
  omega

/-- A decimal date is calendar-valid when `unix_time` round-trips it and
it is after the epoch. Dates produced by `decimal_time(time())` in
`Jidac::add` (src/zpaq.cpp:3903) are of this form. -/
def Cal (dt : ℕ) : Prop :=
  decimal_time (unix_time dt) = dt ∧ 1 ≤ unix_time dt

instance (dt : ℕ) : Decidable (Cal dt) := by unfold Cal; infer_instance

theorem Cal.lt_next (prev : ℕ) (hc : Cal prev) :
    prev < decimal_time (unix_time prev + 1) := by
  conv_lhs => rw [← hc.1]
  exact decimal_succ_lt _

/-- The date adjustment of `Jidac::add` (src/zpaq.cpp:3929-3936):
`if (ver.size() && ver.back().date>=date)
  date=decimal_time(unix_time(ver.back().date)+1)`,
as a function of the list of snapshot dates already in `ver`. -/
def adjustDate (ds : List ℕ) (date : ℕ) : ℕ :=
  match ds.getLast? with
  | none => date
  | some prev => if date ≤ prev then decimal_time (unix_time prev + 1) else date

/-- The snapshot dates after a sequence of `add` runs with wall-clock
dates `nows`: each run appends its (possibly adjusted) date to `ver`. -/
def snapDates (nows : List ℕ) : List ℕ :=
  nows.foldl (fun ds n => ds ++ [adjustDate ds n]) []

theorem getLast?_mem {ds : List ℕ} {m : ℕ} (h : ds.getLast? = some m) :
    m ∈ ds := by
  obtain ⟨hne, he⟩ := List.mem_getLast?_eq_getLast (Option.mem_def.mpr h)
  rw [he]
  exact List.getLast_mem hne

theorem pairwise_last_le : ∀ (ds : List ℕ) (m : ℕ),
    List.Pairwise (· < ·) ds → ds.getLast? = some m → ∀ x ∈ ds, x ≤ m := by
  intro ds
  induction ds with
  | nil => intro m _ hm; simp at hm
  | cons a t ih =>
    intro m hp hm x hx
    cases t with
    | nil =>
      simp at hm hx
      omega
    | cons b t2 =>
      rw [List.getLast?_cons_cons] at hm
      have hmem : m ∈ b :: t2 := getLast?_mem hm
      rcases List.mem_cons.mp hx with rfl | hx2
      · have := (List.pairwise_cons.mp hp).1 m hmem
        omega
      · exact ih m (List.pairwise_cons.mp hp).2 hm x hx2

theorem snapGo_invariant : ∀ (nows ds : List ℕ),
    (∀ n ∈ nows, Cal n ∧ unix_time n + nows.length < SMAX) →
    List.Pairwise (· < ·) ds →
    (∀ x ∈ ds, Cal x ∧ unix_time x + nows.length < SMAX) →
    List.Pairwise (· < ·)
      (nows.foldl (fun ds n => ds ++ [adjustDate ds n]) ds) := by
  intro nows
  induction nows with
  | nil => intro ds _ hp _; simpa using hp
  | cons n rest ih =>
    intro ds hnows hp hds
    simp only [List.foldl_cons]
    have hn := hnows n (by simp)
    have hnew : (∀ x ∈ ds, x < adjustDate ds n) ∧ Cal (adjustDate ds n) ∧
        unix_time (adjustDate ds n) + rest.length < SMAX := by
      cases hlast : ds.getLast? with
      | none =>
        have hAdj : adjustDate ds n = n := by
          unfold adjustDate
          rw [hlast]
        have hnil : ds = [] := List.getLast?_eq_none_iff.mp hlast
        subst hnil
        rw [hAdj]
        simp only [List.length_cons] at hn
        exact ⟨by simp, hn.1, by omega⟩
      | some prev =>
        have hAdj : adjustDate ds n
            = if n ≤ prev then decimal_time (unix_time prev + 1) else n := by
          unfold adjustDate
          rw [hlast]
        have hprev := hds prev (getLast?_mem hlast)
        simp only [List.length_cons] at hprev hn
        have hle := pairwise_last_le ds prev hp hlast
        rw [hAdj]
        by_cases hcond : n ≤ prev
        · rw [if_pos hcond]
          have hlt := Cal.lt_next prev hprev.1
          have hs1 : unix_time prev + 1 < SMAX := by omega
          have hrt := unix_decimal_roundtrip (unix_time prev + 1) hs1
          refine ⟨fun x hx => lt_of_le_of_lt (hle x hx) hlt,
            ⟨by rw [hrt], by omega⟩, ?_⟩
          rw [hrt]
          omega
        · rw [if_neg hcond]
          exact ⟨fun x hx => lt_of_le_of_lt (hle x hx) (by omega),
            hn.1, by omega⟩
    apply ih (ds ++ [adjustDate ds n])
    · intro x hx
      have := hnows x (by simp [hx])
      simp only [List.length_cons] at this
      exact ⟨this.1, by omega⟩
    · rw [List.pairwise_append]
      refine ⟨hp, by simp, ?_⟩
      intro x hx y hy
      simp only [List.mem_singleton] at hy
      subst hy
      exact hnew.1 x hx
    · intro x hx
      rcases List.mem_append.mp hx with hx1 | hx1
      · have := hds x hx1
        simp only [List.length_cons] at this
        exact ⟨this.1, by omega⟩
      · simp only [List.mem_singleton] at hx1
        subst hx1
        exact ⟨hnew.2.1, hnew.2.2⟩

/-- **C5.** In `add`, if the current wall-clock date is ≤ the previous
snapshot's date (`ver.back().date`), the new snapshot's date is set to
`decimal_time(unix_time(prev)+1)` — the previous date plus one second,
i.e. its `unix_time` is exactly `unix_time prev + 1` and it is strictly
larger than `prev` (src/zpaq.cpp:3929-3936); consequently the snapshot
dates are strictly increasing: for all indexes `i < j`,
`ver[i].date < ver[j].date`. Wall-clock dates are assumed calendar-valid
(as `decimal_time(time())` produces) and within the supported range. -/
theorem c5_date_monotone (nows : List ℕ)
    (h : ∀ n ∈ nows, Cal n ∧ unix_time n + nows.length < SMAX) :
    (∀ (i j : Fin (snapDates nows).length), i < j →
        (snapDates nows).get i < (snapDates nows).get j) ∧
    ∀ ds n prev, ds.getLast? = some prev → n ≤ prev → Cal prev →
      unix_time prev + 1 < SMAX →
      adjustDate ds n = decimal_time (unix_time prev + 1) ∧
      unix_time (adjustDate ds n) = unix_time prev + 1 ∧
      prev < adjustDate ds n := by
  constructor
  · have hp : List.Pairwise (· < ·) (snapDates nows) :=
      snapGo_invariant nows [] h (by simp) (by simp)
    exact fun i j hij => List.pairwise_iff_get.mp hp i j hij
  · intro ds n prev hlast hle hcal hsmax
    have heq : adjustDate ds n = decimal_time (unix_time prev + 1) := by
      have hAdj : adjustDate ds n
          = if n ≤ prev then decimal_time (unix_time prev + 1) else n := by
        unfold adjustDate
        rw [hlast]
      rw [hAdj, if_pos hle]
    refine ⟨heq, ?_, ?_⟩
    · rw [heq]
      exact unix_decimal_roundtrip _ hsmax
    · rw [heq]
      exact Cal.lt_next prev hcal

/-- Witness for `c5_date_monotone`: two runs with the same wall-clock
date `20250101120000`; the second snapshot is dated one second later. -/
theorem c5_date_monotone_witness :
    snapDates [20250101120000, 20250101120000]
        = [20250101120000, 20250101120001] ∧
    (snapDates [20250101120000, 20250101120000]).get ⟨0, by decide⟩
      < (snapDates [20250101120000, 20250101120000]).get ⟨1, by decide⟩ ∧
    adjustDate [20250101120000] 20250101120000 = 20250101120001 := by
  have h := c5_date_monotone [20250101120000, 20250101120000] (by decide)
  refine ⟨by decide, h.1 ⟨0, by decide⟩ ⟨1, by decide⟩ (by decide), ?_⟩
  have h2 := h.2 [20250101120000] 20250101120000 20250101120000 (by decide)
    (by decide) (by decide) (by decide)
  rw [h2.1]
  decide



/- **Parallel compress scheduler (C10).** The buffer queue of `Jidac::add`:
slot states from `struct CJ` (src/zpaq.cpp:3563-3574; the transient
COMPRESSING/WRITING states are inside atomic steps here), the producer
`CompressJob::write` (src/zpaq.cpp:3613-3634), the workers `compressThread`
(src/zpaq.cpp:3637-3690; worker `j` only ever compresses slot `j`, which is
a special case of the `compress` step below), and the archive writer
`writeThread` (src/zpaq.cpp:3694-3734). Payloads are byte lists; the
compression performed by `compressBlock` is an arbitrary function `f` of
the slot's input buffer (method, filename and type travel with the
buffer). -/

/-- State of one queue slot (`CJ::state`, src/zpaq.cpp:3565), with the
buffer contents attached: `FULL` holds the uncompressed input `in`,
`COMPRESSED` holds the compressed output `out`. -/
inductive CJSt where
  | empty : CJSt
  | full : List ℕ → CJSt
  | compressed : List ℕ → CJSt
deriving DecidableEq

/-- The scheduler state: the slot array `q`, the writer's cursor `front`,
the inputs not yet enqueued and the archive contents written so far
(`CompressJob`, src/zpaq.cpp:3576-3610). -/
structure CQ where
  slots : List CJSt
  front : ℕ
  pending : List (List ℕ)
  written : List (List ℕ)
deriving DecidableEq

/-- The producer's scan `for (i=0; i<qsize; ++i)
if (q[j=(i+front)%qsize].state==CJ::EMPTY) ...` (src/zpaq.cpp:3619-3620):
first EMPTY slot at cyclic distance `i` from `front`. -/
def scanEmptyGo (slots : List CJSt) (front : ℕ) : ℕ → ℕ → Option ℕ
  | _, 0 => none
  | i, n + 1 =>
    if slots.getD ((i + front) % slots.length) CJSt.empty = CJSt.empty then
      some ((i + front) % slots.length)
    else scanEmptyGo slots front (i + 1) n

/-- `CompressJob::write`'s choice of slot (src/zpaq.cpp:3619-3628). -/
def scanEmpty (slots : List CJSt) (front : ℕ) : Option ℕ :=
  scanEmptyGo slots front 0 slots.length

/-- Initial state: `t` EMPTY buffers, `front = 0`, nothing written
(`CompressJob::CompressJob`, src/zpaq.cpp:3587-3597). -/
def CQ.init (T : ℕ) (inputs : List (List ℕ)) : CQ :=
  ⟨List.replicate T CJSt.empty, 0, inputs, []⟩

/-- One scheduler step: `write` is `CompressJob::write` filling the first
EMPTY slot from `front` with the next pending input (src/zpaq.cpp:3613-3634,
gated by the `empty` semaphore, hence the `some j` premise); `compress` is
a worker turning a FULL slot into COMPRESSED output (src/zpaq.cpp:3659-3682);
`writeOut` is `writeThread` appending the COMPRESSED payload of slot
`front` to the archive, emptying it and advancing `front` cyclically
(src/zpaq.cpp:3712-3723). -/
inductive CStep (f : List ℕ → List ℕ) : CQ → CQ → Prop
  | write (s : CQ) (d : List ℕ) (rest : List (List ℕ)) (j : ℕ)
      (hp : s.pending = d :: rest)
      (hj : scanEmpty s.slots s.front = some j) :
      CStep f s ⟨s.slots.set j (CJSt.full d), s.front, rest, s.written⟩
  | compress (s : CQ) (j : ℕ) (d : List ℕ)
      (hj : s.slots.getD j CJSt.empty = CJSt.full d) :
      CStep f s ⟨s.slots.set j (CJSt.compressed (f d)), s.front, s.pending,
                 s.written⟩
  | writeOut (s : CQ) (c : List ℕ)
      (hc : s.slots.getD s.front CJSt.empty = CJSt.compressed c) :
      CStep f s ⟨s.slots.set s.front CJSt.empty,
                 (s.front + 1) % s.slots.length, s.pending,
                 s.written ++ [c]⟩

/-- Reachable-state invariant: `w` payloads written, `k` in flight; the
in-flight inputs occupy slots `front, front+1, ..., front+k-1 (mod T)` in
enqueue order, each still FULL or already COMPRESSED; all other slots are
EMPTY; the archive holds the compressed first `w` inputs in order. -/
def CInv (f : List ℕ → List ℕ) (T : ℕ) (inputs : List (List ℕ)) (s : CQ) :
    Prop :=
  ∃ w k,
    s.slots.length = T ∧ s.front < T ∧ k ≤ T ∧ w + k ≤ inputs.length ∧
    s.written = (inputs.take w).map f ∧
    s.pending = inputs.drop (w + k) ∧
    (∀ i, i < k →
      s.slots.getD ((i + s.front) % T) CJSt.empty
          = CJSt.full (inputs.getD (w + i) []) ∨
      s.slots.getD ((i + s.front) % T) CJSt.empty
          = CJSt.compressed (f (inputs.getD (w + i) []))) ∧
    (∀ i, k ≤ i → i < T →
      s.slots.getD ((i + s.front) % T) CJSt.empty = CJSt.empty)

theorem getD_set_self {α : Type} (l : List α) (i : ℕ) (a d : α)
    (h : i < l.length) : (l.set i a).getD i d = a := by
  rw [List.getD_eq_getElem?_getD, List.getElem?_set_self h]
  rfl

theorem getD_set_other {α : Type} (l : List α) (i j : ℕ) (a d : α)
    (h : i ≠ j) : (l.set i a).getD j d = l.getD j d := by
  rw [List.getD_eq_getElem?_getD, List.getElem?_set_ne h,
    ← List.getD_eq_getElem?_getD]

theorem mod_inj_lt (front T i j : ℕ) (hi : i < T) (hj : j < T)
    (h : (i + front) % T = (j + front) % T) : i = j := by
  have h2 : front + i ≡ front + j [MOD T] := by
    unfold Nat.ModEq
    rw [Nat.add_comm front i, Nat.add_comm front j]
    exact h
  have h3 := Nat.ModEq.add_left_cancel' front h2
  unfold Nat.ModEq at h3
  rw [Nat.mod_eq_of_lt hi, Nat.mod_eq_of_lt hj] at h3
  exact h3

theorem cyc_cover (front T j : ℕ) (hT : 0 < T) (hj : j < T) :
    ∃ i, i < T ∧ (i + front) % T = j := by
  have hfm : front % T < T := Nat.mod_lt front hT
  rcases Nat.lt_or_ge j (front % T) with h | h
  · refine ⟨j + T - front % T, by omega, ?_⟩
    have hb : j + T - front % T < T := by omega
    rw [Nat.add_mod, Nat.mod_eq_of_lt hb]
    have he : j + T - front % T + front % T = j + T := by omega
    rw [he, Nat.add_mod_right, Nat.mod_eq_of_lt hj]
  · refine ⟨j - front % T, by omega, ?_⟩
    have hb : j - front % T < T := by omega
    rw [Nat.add_mod, Nat.mod_eq_of_lt hb]
    have he : j - front % T + front % T = j := by omega
    rw [he, Nat.mod_eq_of_lt hj]

theorem scanEmptyGo_none (slots : List CJSt) (front : ℕ) :
    ∀ (n i : ℕ),
    (∀ m, m < n →
      slots.getD ((i + m + front) % slots.length) CJSt.empty ≠ CJSt.empty) →
    scanEmptyGo slots front i n = none := by
  intro n
  induction n with
  | zero => intro i _; rfl
  | succ n ihn =>
    intro i hne
    unfold scanEmptyGo
    rw [if_neg]
    · apply ihn
      intro m hm
      have h2 := hne (m + 1) (by omega)
      have he : i + (m + 1) + front = i + 1 + m + front := by omega
      rwa [he] at h2
    · have h0 := hne 0 (by omega)
      simpa using h0

theorem scanEmptyGo_finds (slots : List CJSt) (front : ℕ) :
    ∀ (n i k : ℕ), k < n →
    (∀ m, m < k →
      slots.getD ((i + m + front) % slots.length) CJSt.empty ≠ CJSt.empty) →
    slots.getD ((i + k + front) % slots.length) CJSt.empty = CJSt.empty →
    scanEmptyGo slots front i n = some ((i + k + front) % slots.length) := by
  intro n
  induction n with
  | zero => intro i k hk _ _; omega
  | succ n ihn =>
    intro i k hk hne he
    unfold scanEmptyGo
    cases k with
    | zero =>
      rw [if_pos]
      · have he2 : i + 0 + front = i + front := by omega
        rw [he2]
      · have he2 : i + 0 + front = i + front := by omega
        rwa [he2] at he
    | succ m =>
      rw [if_neg]
      · have hne2 : ∀ m2, m2 < m →
            slots.getD ((i + 1 + m2 + front) % slots.length) CJSt.empty
              ≠ CJSt.empty := by
          intro m2 hm2
          have h3 := hne (m2 + 1) (by omega)
          have heq : i + (m2 + 1) + front = i + 1 + m2 + front := by omega
          rwa [heq] at h3
        have he2 : slots.getD ((i + 1 + m + front) % slots.length) CJSt.empty
            = CJSt.empty := by
          have heq : i + (m + 1) + front = i + 1 + m + front := by omega
          rwa [heq] at he
        have h2 := ihn (i + 1) m (by omega) hne2 he2
        rw [h2]
        have heq : i + 1 + m + front = i + (m + 1) + front := by omega
        rw [heq]
      · have h0 := hne 0 (by omega)
        simpa using h0

theorem drop_cons_getD {α : Type} (d0 : α) :
    ∀ (n : ℕ) (l : List α) (d : α) (rest : List α),
    l.drop n = d :: rest →
    l.getD n d0 = d ∧ l.drop (n + 1) = rest ∧ n < l.length := by
  intro n
  induction n with
  | zero =>
    intro l d rest h
    rw [List.drop_zero] at h
    subst h
    exact ⟨rfl, rfl, by simp⟩
  | succ n ihn =>
    intro l d rest h
    cases l with
    | nil => simp at h
    | cons a t =>
      rw [List.drop_succ_cons] at h
      obtain ⟨h1, h2, h3⟩ := ihn t d rest h
      refine ⟨h1, h2, ?_⟩
      simp only [List.length_cons]
      omega

theorem cinv_step (f : List ℕ → List ℕ) (T : ℕ) (inputs : List (List ℕ))
    (s s' : CQ) (hinv : CInv f T inputs s) (hstep : CStep f s s') :
    CInv f T inputs s' := by
  obtain ⟨w, k, hlen, hfr, hkT, hwk, hwr, hpd, hinf, hemp⟩ := hinv
  have hT : 0 < T := by omega
  cases hstep with
  | write d rest j hp hj =>
    have hdc : inputs.drop (w + k) = d :: rest := by rw [← hpd, hp]
    obtain ⟨hgd, hdrop, hwklt⟩ := drop_cons_getD [] (w + k) inputs d rest hdc
    have hnone_pre : ∀ m, m < k →
        s.slots.getD ((0 + m + s.front) % s.slots.length) CJSt.empty
          ≠ CJSt.empty := by
      intro m hm
      rw [hlen, Nat.zero_add]
      rcases hinf m hm with h1 | h1 <;> rw [h1] <;> simp
    have hkT' : k < T := by
      by_contra hge
      push_neg at hge
      have hall : ∀ m, m < s.slots.length →
          s.slots.getD ((0 + m + s.front) % s.slots.length) CJSt.empty
            ≠ CJSt.empty := by
        intro m hm
        exact hnone_pre m (by omega)
      have hnone := scanEmptyGo_none s.slots s.front s.slots.length 0 hall
      unfold scanEmpty at hj
      rw [hnone] at hj
      cases hj
    have hfind := scanEmptyGo_finds s.slots s.front s.slots.length 0 k
        (by omega) hnone_pre
        (by rw [hlen, Nat.zero_add]; exact hemp k le_rfl hkT')
    have hjeq : j = (k + s.front) % T := by
      unfold scanEmpty at hj
      rw [hfind] at hj
      have h2 := Option.some.inj hj
      rw [Nat.zero_add, hlen] at h2
      exact h2.symm
    have hjlt : j < s.slots.length := by
      rw [hlen, hjeq]
      exact Nat.mod_lt _ hT
    refine ⟨w, k + 1, by simpa using hlen, hfr, by omega, by omega, hwr,
      hdrop.symm, ?_, ?_⟩
    · intro i hi
      rcases Nat.lt_or_ge i k with hik | hik
      · have hne : j ≠ (i + s.front) % T := by
          rw [hjeq]
          intro hcontra
          have h2 := mod_inj_lt s.front T k i hkT' (by omega) hcontra
          omega
        rw [getD_set_other _ _ _ _ _ hne]
        exact hinf i hik
      · have hieq : i = k := by omega
        subst hieq
        left
        rw [← hjeq, getD_set_self _ _ _ _ hjlt, hgd]
    · intro i hi1 hi2
      have hne : j ≠ (i + s.front) % T := by
        rw [hjeq]
        intro hcontra
        have h2 := mod_inj_lt s.front T k i hkT' hi2 hcontra
        omega
      rw [getD_set_other _ _ _ _ _ hne]
      exact hemp i (by omega) hi2
  | compress j d hj =>
    have hjlt : j < s.slots.length := by
      by_contra hge
      push_neg at hge
      rw [List.getD_eq_default _ _ hge] at hj
      cases hj
    obtain ⟨i0, hi0T, hi0eq⟩ := cyc_cover s.front T j hT (by omega)
    have hi0k : i0 < k := by
      by_contra hge
      push_neg at hge
      have h2 := hemp i0 hge hi0T
      rw [hi0eq] at h2
      rw [h2] at hj
      cases hj
    have hslot := hinf i0 hi0k
    rw [hi0eq] at hslot
    rcases hslot with h1 | h1
    case inr => rw [h1] at hj; cases hj
    have hdeq : inputs.getD (w + i0) [] = d := by
      rw [h1] at hj
      exact CJSt.full.inj hj
    refine ⟨w, k, by simpa using hlen, hfr, hkT, hwk, hwr, hpd, ?_, ?_⟩
    · intro i hik
      by_cases heq : i = i0
      · subst heq
        right
        rw [hi0eq, getD_set_self _ _ _ _ hjlt, hdeq]
      · have hne : j ≠ (i + s.front) % T := by
          rw [← hi0eq]
          intro hcontra
          have h2 := mod_inj_lt s.front T i0 i hi0T (by omega) hcontra
          omega
        rw [getD_set_other _ _ _ _ _ hne]
        exact hinf i hik
    · intro i hi1 hi2
      have hne : j ≠ (i + s.front) % T := by
        rw [← hi0eq]
        intro hcontra
        have h2 := mod_inj_lt s.front T i0 i hi0T hi2 hcontra
        omega
      rw [getD_set_other _ _ _ _ _ hne]
      exact hemp i hi1 hi2
  | writeOut c hc =>
    have hfr0 : (0 + s.front) % T = s.front := by
      rw [Nat.zero_add, Nat.mod_eq_of_lt hfr]
    have hk1 : 1 ≤ k := by
      by_contra hk0
      push_neg at hk0
      have h2 := hemp 0 (by omega) hT
      rw [hfr0] at h2
      rw [h2] at hc
      cases hc
    have hslot := hinf 0 (by omega)
    rw [hfr0] at hslot
    rcases hslot with h1 | h1
    case inl => rw [h1] at hc; cases hc
    have hceq : f (inputs.getD (w + 0) []) = c := by
      rw [h1] at hc
      exact CJSt.compressed.inj hc
    have hwlt : w < inputs.length := by omega
    have hfrlen : s.front < s.slots.length := by rw [hlen]; exact hfr
    refine ⟨w + 1, k - 1, by simpa using hlen, ?_, by omega, by omega, ?_,
      ?_, ?_, ?_⟩
    · rw [hlen]
      exact Nat.mod_lt _ hT
    · rw [List.take_succ, List.getElem?_eq_getElem hwlt, List.map_append,
        hwr, ← hceq]
      have h2 : inputs.getD (w + 0) [] = inputs[w] := by
        have h3 : w + 0 = w := by omega
        rw [h3]
        exact List.getD_eq_getElem _ _ hwlt
      rw [h2]
      rfl
    · rw [hpd]
      have h2 : w + 1 + (k - 1) = w + k := by omega
      rw [h2]
    · intro i hik
      have hfr' : (i + (s.front + 1) % s.slots.length) % T
          = (i + 1 + s.front) % T := by
        rw [hlen, Nat.add_mod_mod]
        have h2 : i + (s.front + 1) = i + 1 + s.front := by omega
        rw [h2]
      rw [hfr']
      have hne : s.front ≠ (i + 1 + s.front) % T := by
        intro hcontra
        have h0 : (0 + s.front) % T = (i + 1 + s.front) % T := by
          rw [hfr0]
          exact hcontra
        have h2 := mod_inj_lt s.front T 0 (i + 1) hT (by omega) h0
        omega
      rw [getD_set_other _ _ _ _ _ hne]
      have h2 := hinf (i + 1) (by omega)
      have heq2 : w + 1 + i = w + (i + 1) := by omega
      rw [heq2]
      exact h2
    · intro i hi1 hi2
      have hfr' : (i + (s.front + 1) % s.slots.length) % T
          = (i + 1 + s.front) % T := by
        rw [hlen, Nat.add_mod_mod]
        have h2 : i + (s.front + 1) = i + 1 + s.front := by omega
        rw [h2]
      rw [hfr']
      rcases Nat.lt_or_ge (i + 1) T with hiT | hiT
      · have hne : s.front ≠ (i + 1 + s.front) % T := by
          intro hcontra
          have h0 : (0 + s.front) % T = (i + 1 + s.front) % T := by
            rw [hfr0]
            exact hcontra
          have h2 := mod_inj_lt s.front T 0 (i + 1) hT hiT h0
          omega
        rw [getD_set_other _ _ _ _ _ hne]
        exact hemp (i + 1) (by omega) hiT
      · have hieq : i + 1 = T := by omega
        have hidx : (i + 1 + s.front) % T = s.front := by
          rw [hieq, Nat.add_mod_left, Nat.mod_eq_of_lt hfr]
        rw [hidx, getD_set_self _ _ _ _ hfrlen]

theorem cinv_init (f : List ℕ → List ℕ) (T : ℕ) (inputs : List (List ℕ))
    (hT : 1 ≤ T) : CInv f T inputs (CQ.init T inputs) := by
  refine ⟨0, 0, by simp [CQ.init], ?_, by omega, by omega,
    by simp [CQ.init], by simp [CQ.init], ?_, ?_⟩
  · show 0 < T
    omega
  · intro i hi
    omega
  · intro i hi1 hi2
    show (List.replicate T CJSt.empty).getD ((i + 0) % T) CJSt.empty
      = CJSt.empty
    rw [List.getD_eq_getElem?_getD, List.getElem?_replicate]
    split <;> rfl

theorem cinv_reach (f : List ℕ → List ℕ) (T : ℕ) (inputs : List (List ℕ))
    (s : CQ) (hT : 1 ≤ T)
    (h : Relation.ReflTransGen (CStep f) (CQ.init T inputs) s) :
    CInv f T inputs s := by
  induction h with
  | refl => exact cinv_init f T inputs hT
  | tail hab hbc ih => exact cinv_step f T inputs _ _ ih hbc

/-- **C10.** For a fixed input sequence and compression function, whenever
the scheduler runs to completion (no pending input, all buffers drained) —
for any queue size `T ≥ 1` (the `-threads` parameter) and any interleaving
of producer, worker and writer steps — the archive contains exactly the
compressed payloads in producer enqueue order: `written = inputs.map f`.
In particular the sequence of `d`-block payloads is independent of `T` and
of worker scheduling. -/
theorem c10_write_order (f : List ℕ → List ℕ) (T : ℕ)
    (inputs : List (List ℕ)) (s : CQ) (hT : 1 ≤ T)
    (hreach : Relation.ReflTransGen (CStep f) (CQ.init T inputs) s)
    (hpend : s.pending = [])
    (hslots : ∀ j, j < T → s.slots.getD j CJSt.empty = CJSt.empty) :
    s.written = inputs.map f := by
  obtain ⟨w, k, hlen, hfr, hkT, hwk, hwr, hpd, hinf, hemp⟩ :=
    cinv_reach f T inputs s hT hreach
  have hT0 : 0 < T := hT
  have hk0 : k = 0 := by
    by_contra hk
    have h0 := hinf 0 (by omega)
    have hlt : (0 + s.front) % T < T := Nat.mod_lt _ hT0
    have he := hslots ((0 + s.front) % T) hlt
    rcases h0 with h1 | h1 <;> rw [he] at h1 <;> cases h1
  subst hk0
  have hwlen : inputs.length ≤ w := by
    by_contra hlt
    push_neg at hlt
    rw [hpd] at hpend
    have h2 : (inputs.drop (w + 0)).length = 0 := by rw [hpend]; rfl
    rw [List.length_drop] at h2
    omega
  rw [hwr, List.take_of_length_le hwlen]

/-- Witness for `c10_write_order`: `T = 2`, two inputs, with slot 1
compressed before slot 0; the writer still emits them in enqueue order. -/
theorem c10_write_order_witness :
    (CQ.mk [CJSt.empty, CJSt.empty] 0 [] [[1, 0], [2, 0]]).written
      = ([[1], [2]] : List (List ℕ)).map (fun d => d ++ [0]) := by
  apply c10_write_order (fun d => d ++ [0]) 2 [[1], [2]]
    (CQ.mk [CJSt.empty, CJSt.empty] 0 [] [[1, 0], [2, 0]]) (by omega)
  · have h1 := @CStep.write (fun d : List ℕ => d ++ [0])
      (CQ.init 2 [[1], [2]]) [1] [[2]] 0 rfl (by decide)
    have h2 := @CStep.write (fun d : List ℕ => d ++ [0])
      ⟨[CJSt.full [1], CJSt.empty], 0, [[2]], []⟩ [2] [] 1 rfl (by decide)
    have h3 := @CStep.compress (fun d : List ℕ => d ++ [0])
      ⟨[CJSt.full [1], CJSt.full [2]], 0, [], []⟩ 1 [2] (by decide)
    have h4 := @CStep.compress (fun d : List ℕ => d ++ [0])
      ⟨[CJSt.full [1], CJSt.compressed [2, 0]], 0, [], []⟩ 0 [1] (by decide)
    have h5 := @CStep.writeOut (fun d : List ℕ => d ++ [0])
      ⟨[CJSt.compressed [1, 0], CJSt.compressed [2, 0]], 0, [], []⟩ [1, 0]
      (by decide)
    have h6 := @CStep.writeOut (fun d : List ℕ => d ++ [0])
      ⟨[CJSt.empty, CJSt.compressed [2, 0]], 1, [], [[1, 0]]⟩ [2, 0]
      (by decide)
    exact Relation.ReflTransGen.tail (Relation.ReflTransGen.tail
      (Relation.ReflTransGen.tail (Relation.ReflTransGen.tail
      (Relation.ReflTransGen.tail (Relation.ReflTransGen.tail
      Relation.ReflTransGen.refl h1) h2) h3) h4) h5) h6
  · rfl
  · intro j hj
    interval_cases j <;> rfl



/- **Round trip `extract` after `add` (C1).** The per-file pipeline of
`Jidac::add` (src/zpaq.cpp:3797-4262): chunk each file's contents
(`chunkFile`, src/zpaq.cpp:4050-4070), deduplicate fragments against the
SHA-1 index (src/zpaq.cpp:4073-4145), and append one index record per file
(filename, date, attribute bytes, fragment-pointer list,
src/zpaq.cpp:4203-4232); and `Jidac::extract` (src/zpaq.cpp:4565-4757),
which rebuilds each file by writing its fragments' bytes in pointer order
(src/zpaq.cpp:4484-4548) and restores the date and attributes on close
(`outf.close(dtv.date, dtv.attr)`, src/zpaq.cpp:4549-4556).  SHA-1 and the
block codec live in libzpaq, outside src/: SHA-1 is a parameter `hashF`
(assumed collision-free, i.e. injective), and since `compressBlock` and
`Decompresser` invert each other for every method `m ∈ {0..6}`, the `d`
blocks are modelled by a store holding each stored fragment's bytes. -/

/-- The attribute encoding `add` writes into an `i` record
(src/zpaq.cpp:4216-4225): 3 bytes for unix attrs (`'u'`, low byte 117),
`'w'` plus `itob(attr>>8)` for windows attrs (low byte 119), empty
otherwise. -/
def attrEncode (attr : ℕ) : List ℕ :=
  if attr % 256 = 117 then [117, attr / 256 % 256, attr / 65536 % 256]
  else if attr % 256 = 119 then 119 :: itob (attr / 256)
  else []

/-- Attribute values whose encoding is lossless: 0, or unix attrs below
`2^24`, or windows attrs below `2^40` (higher bits are not written by
src/zpaq.cpp:4216-4225 and both OSes' attrs fit). -/
def AttrOK (attr : ℕ) : Prop :=
  attr = 0 ∨ (attr % 256 = 117 ∧ attr < 2^24)
    ∨ (attr % 256 = 119 ∧ attr < 2^40)

instance (attr : ℕ) : Decidable (AttrOK attr) := by
  unfold AttrOK; infer_instance

/-- Decoding by `read_archive` (src/zpaq.cpp:1988-1991, `attrDecode`)
inverts the encoding written by `add` on `AttrOK` attributes. -/
theorem attr_roundtrip (attr : ℕ) (h : AttrOK attr) :
    attrDecode (attrEncode attr) = attr := by
  rcases h with h0 | ⟨hu, hlt⟩ | ⟨hw, hlt⟩
  · subst h0
    decide
  · unfold attrEncode
    rw [if_pos hu]
    unfold attrDecode
    simp only [List.take, List.foldr]
    omega
  · unfold attrEncode
    have hne : ¬(attr % 256 = 117) := by omega
    rw [if_neg hne, if_pos hw]
    unfold attrDecode itob
    simp only [List.take, List.foldr]
    omega

/-- One input file as `add` sees it: name, mtime date, attributes, and
contents. -/
structure FileM where
  name : List ℕ
  date : ℕ
  attr : ℕ
  content : List ℕ
  deriving Repr, DecidableEq

/-- Modelled from the spec: the journaling archive contents relevant to
one `add` into an empty archive — the fragment table `ht` and its index
`htinv` exactly as in `Jidac::add`, the stored bytes of each fragment
(`frags.getD (i-1)` is fragment ID `i`; the compressed `d` blocks are
recovered bytewise by extract's decompression), and the `i` records
`(filename, date, attr bytes, fragment pointers)` that `add` writes
(src/zpaq.cpp:4203-4232) and `read_archive` reparses into `dt`. -/
structure Arch1 where
  ht : List HT
  htinv : HTIndex
  frags : List (List ℕ)
  idx : List (List ℕ × ℕ × List ℕ × List ℕ)

/-- One fragment through the dedup step of `add` (src/zpaq.cpp:4073-4145,
as `dedupStep`) acting on the archive model: a miss pushes `HT(sh, sz, 0)`,
indexes it and stores the fragment's bytes; a hit stores nothing; either
way the fragment's ID is appended to the file's pointer list `eptr`. -/
def addFrag (hashF : List ℕ → List ℕ) (st : Arch1 × List ℕ)
    (frag : List ℕ) : Arch1 × List ℕ :=
  if st.1.htinv.find st.1.ht (hashF frag) = 0 then
    (⟨st.1.ht ++ [⟨hashF frag, (frag.length : ℤ), 0⟩],
      st.1.htinv.update (st.1.ht ++ [⟨hashF frag, (frag.length : ℤ), 0⟩]),
      st.1.frags ++ [frag], st.1.idx⟩,
     st.2 ++ [st.1.ht.length])
  else (st.1, st.2 ++ [st.1.htinv.find st.1.ht (hashF frag)])

/-- One file through `add`: chunk its contents, dedup each fragment, then
append the file's index record (src/zpaq.cpp:4203-4232; the record is
written only from `edate` and `eattr` and `eptr`, which come from the
file itself). -/
def addFile (hashF : List ℕ → List ℕ) (a : Arch1) (f : FileM) : Arch1 :=
  let r := (chunkFile f.content).foldl (addFrag hashF) (a, [])
  ⟨r.1.ht, r.1.htinv, r.1.frags,
   r.1.idx ++ [(f.name, f.date, attrEncode f.attr, r.2)]⟩

/-- The state when `add` starts on an empty archive: `ht.resize(1)`
(src/zpaq.cpp:1687) and `HTIndex htinv(ht)` (src/zpaq.cpp:3762-3764,
3938). -/
def arch0 : Arch1 :=
  ⟨[default], HTIndex.update ⟨fun _ => [], 0⟩ [default], [], []⟩

/-- `add` of a list of files into an empty archive (the main loop of
src/zpaq.cpp:3968-4152 over `vf`). -/
def addAll (hashF : List ℕ → List ℕ) (files : List FileM) : Arch1 :=
  files.foldl (addFile hashF) arch0

/-- Modelled from the spec: `extract` (src/zpaq.cpp:4565-4757) rebuilds
each indexed file: date and attributes from its `dt` record
(`outf.close(dtv.date, dtv.attr)`, src/zpaq.cpp:4549; attributes decoded
by `read_archive`, src/zpaq.cpp:1988-1991), and contents by writing the
bytes of fragments `ptr[0], ptr[1], ...` at consecutive offsets
(src/zpaq.cpp:4484-4548). -/
def extractAll (a : Arch1) : List FileM :=
  a.idx.map (fun e =>
    ⟨e.1, e.2.1, attrDecode e.2.2.1,
     (e.2.2.2.map (fun p => a.frags.getD (p - 1) [])).flatten⟩)

/-- Invariant of the `add` states: `ht` has one entry per stored fragment
plus the sentinel, each entry's 20-byte hash is the hash of the stored
bytes, and the index's buckets only hold real fragment IDs. -/
def A1Inv (hashF : List ℕ → List ℕ) (a : Arch1) : Prop :=
  a.ht.length = a.frags.length + 1 ∧
  1 ≤ a.htinv.htsize ∧
  (∀ i, i < a.frags.length →
    (a.ht.getD (i + 1) default).sha1 = hashF (a.frags.getD i [])) ∧
  (∀ b i, i ∈ a.htinv.t b → 1 ≤ i ∧ i < a.ht.length)

theorem update_fold_mem (ht : List HT) (hts : ℕ) :
    ∀ (l : List ℕ) (t0 : ℕ → List ℕ) (b i : ℕ),
    i ∈ (l.foldl (fun tt i' =>
        if hts ≤ i' ∧ 0 ≤ (ht.getD i' default).usize then
          fun b' => if b' = htHash (ht.getD i' default).sha1 then tt b' ++ [i']
                   else tt b'
        else tt) t0) b →
    i ∈ t0 b ∨ (hts ≤ i ∧ i ∈ l ∧ 0 ≤ (ht.getD i default).usize) := by
  intro l
  induction l with
  | nil => intro t0 b i h; exact Or.inl h
  | cons a rest ih =>
    intro t0 b i h
    rw [List.foldl_cons] at h
    rcases ih _ b i h with h2 | h2
    · by_cases hc : hts ≤ a ∧ 0 ≤ (ht.getD a default).usize
      · rw [if_pos hc] at h2
        by_cases hb : b = htHash (ht.getD a default).sha1
        · rw [if_pos hb] at h2
          rcases List.mem_append.mp h2 with h3 | h3
          · exact Or.inl h3
          · simp only [List.mem_singleton] at h3
            subst h3
            exact Or.inr ⟨hc.1, by simp, hc.2⟩
        · rw [if_neg hb] at h2
          exact Or.inl h2
      · rw [if_neg hc] at h2
        exact Or.inl h2
    · exact Or.inr ⟨h2.1, by simp [h2.2.1], h2.2.2⟩

theorem update_mem (idx : HTIndex) (ht : List HT) (b i : ℕ)
    (h : i ∈ (idx.update ht).t b) :
    i ∈ idx.t b ∨ (idx.htsize ≤ i ∧ i < ht.length ∧
      0 ≤ (ht.getD i default).usize) := by
  have h2 := update_fold_mem ht idx.htsize (List.range ht.length) idx.t b i h
  rcases h2 with h3 | h3
  · exact Or.inl h3
  · exact Or.inr ⟨h3.1, List.mem_range.mp h3.2.1, h3.2.2⟩

theorem find_mem (idx : HTIndex) (ht : List HT) (sha1 : List ℕ)
    (h : idx.find ht sha1 ≠ 0) :
    idx.find ht sha1 ∈ idx.t (htHash sha1) := by
  unfold HTIndex.find at h ⊢
  cases hf : (idx.t (htHash sha1)).find?
      (fun i => decide ((ht.getD i default).sha1 = sha1)) with
  | none => rw [hf] at h; simp at h
  | some i =>
    rw [Option.getD_some]
    exact List.mem_of_find?_eq_some hf

theorem getD_append_lt {α : Type} (l l' : List α) (d : α) (n : ℕ)
    (h : n < l.length) : (l ++ l').getD n d = l.getD n d :=
  List.getD_append l l' d n h

theorem getD_append_len {α : Type} (l : List α) (e d : α) :
    (l ++ [e]).getD l.length d = e := by
  rw [List.getD_eq_getElem?_getD, List.getElem?_append_right le_rfl]
  simp

theorem getD_prefix {a b : List (List ℕ)} (h : a <+: b) (i : ℕ)
    (hi : i < a.length) : b.getD i [] = a.getD i [] := by
  obtain ⟨t, rfl⟩ := h
  exact getD_append_lt a t [] i hi

theorem addFrag_spec (hashF : List ℕ → List ℕ)
    (hinj : Function.Injective hashF) (a : Arch1) (ep : List ℕ)
    (frag : List ℕ) (hinv : A1Inv hashF a) :
    A1Inv hashF (addFrag hashF (a, ep) frag).1 ∧
    (addFrag hashF (a, ep) frag).1.idx = a.idx ∧
    a.frags <+: (addFrag hashF (a, ep) frag).1.frags ∧
    ∃ p, (addFrag hashF (a, ep) frag).2 = ep ++ [p] ∧ 1 ≤ p ∧
      p ≤ (addFrag hashF (a, ep) frag).1.frags.length ∧
      (addFrag hashF (a, ep) frag).1.frags.getD (p - 1) [] = frag := by
  obtain ⟨hlen, hhts, hsha, hbuck⟩ := hinv
  by_cases hj : a.htinv.find a.ht (hashF frag) = 0
  · have hA : addFrag hashF (a, ep) frag
        = (⟨a.ht ++ [⟨hashF frag, (frag.length : ℤ), 0⟩],
            a.htinv.update (a.ht ++ [⟨hashF frag, (frag.length : ℤ), 0⟩]),
            a.frags ++ [frag], a.idx⟩,
           ep ++ [a.ht.length]) := by
      simp only [addFrag, if_pos hj]
    rw [hA]
    refine ⟨⟨?_, ?_, ?_, ?_⟩, rfl, List.prefix_append _ _,
      a.ht.length, rfl, by omega, ?_, ?_⟩
    · show (a.ht ++ [_]).length = (a.frags ++ [frag]).length + 1
      simp only [List.length_append, List.length_cons, List.length_nil]
      omega
    · show 1 ≤ max a.htinv.htsize (a.ht ++ [_]).length
      omega
    · intro i hi
      simp only [List.length_append, List.length_cons, List.length_nil] at hi
      rcases Nat.lt_or_ge i a.frags.length with hi1 | hi1
      · show ((a.ht ++ [_]).getD (i + 1) default).sha1
          = hashF ((a.frags ++ [frag]).getD i [])
        rw [getD_append_lt _ _ _ _ (by omega),
          getD_append_lt _ _ _ _ (by omega)]
        exact hsha i hi1
      · have hieq : i = a.frags.length := by omega
        subst hieq
        show ((a.ht ++ [_]).getD (a.frags.length + 1) default).sha1
          = hashF ((a.frags ++ [frag]).getD a.frags.length [])
        have he1 : a.frags.length + 1 = a.ht.length := by omega
        rw [he1, getD_append_len, getD_append_len]
    · intro b i hmem
      rcases update_mem _ _ b i hmem with h1 | h1
      · have h2 := hbuck b i h1
        refine ⟨h2.1, ?_⟩
        show i < (a.ht ++ [_]).length
        simp only [List.length_append, List.length_cons, List.length_nil]
        omega
      · exact ⟨by omega, h1.2.1⟩
    · show a.ht.length ≤ (a.frags ++ [frag]).length
      simp only [List.length_append, List.length_cons, List.length_nil]
      omega
    · show (a.frags ++ [frag]).getD (a.ht.length - 1) [] = frag
      have he1 : a.ht.length - 1 = a.frags.length := by omega
      rw [he1, getD_append_len]
  · have hA : addFrag hashF (a, ep) frag
        = (a, ep ++ [a.htinv.find a.ht (hashF frag)]) := by
      simp only [addFrag, if_neg hj]
    rw [hA]
    have hfm := find_mem a.htinv a.ht (hashF frag) hj
    have hrange := hbuck _ _ hfm
    have hsound := HTIndex.find_sound a.htinv a.ht (hashF frag) hj
    have hlt : a.htinv.find a.ht (hashF frag) - 1 < a.frags.length := by
      omega
    have hs2 := hsha (a.htinv.find a.ht (hashF frag) - 1) hlt
    have he1 : a.htinv.find a.ht (hashF frag) - 1 + 1
        = a.htinv.find a.ht (hashF frag) := by omega
    rw [he1] at hs2
    have hle : a.htinv.find a.ht (hashF frag) ≤ a.frags.length := by omega
    refine ⟨⟨hlen, hhts, hsha, hbuck⟩, rfl, List.prefix_refl _,
      a.htinv.find a.ht (hashF frag), rfl, hrange.1, hle, ?_⟩
    show a.frags.getD (a.htinv.find a.ht (hashF frag) - 1) [] = frag
    apply hinj
    rw [← hs2, hsound]

theorem addFrags_spec (hashF : List ℕ → List ℕ)
    (hinj : Function.Injective hashF) :
    ∀ (fr : List (List ℕ)) (a : Arch1) (ep : List ℕ), A1Inv hashF a →
    A1Inv hashF (fr.foldl (addFrag hashF) (a, ep)).1 ∧
    (fr.foldl (addFrag hashF) (a, ep)).1.idx = a.idx ∧
    a.frags <+: (fr.foldl (addFrag hashF) (a, ep)).1.frags ∧
    ∃ ps, (fr.foldl (addFrag hashF) (a, ep)).2 = ep ++ ps ∧
      (∀ p ∈ ps, 1 ≤ p ∧
        p ≤ (fr.foldl (addFrag hashF) (a, ep)).1.frags.length) ∧
      ps.map (fun p =>
        (fr.foldl (addFrag hashF) (a, ep)).1.frags.getD (p - 1) []) = fr := by
  intro fr
  induction fr with
  | nil =>
    intro a ep hinv
    exact ⟨hinv, rfl, List.prefix_refl _, ⟨[], by simp, by simp, rfl⟩⟩
  | cons f rest ih =>
    intro a ep hinv
    rw [List.foldl_cons]
    obtain ⟨h1, h2, h3, p, hp, hp1, hple, hplook⟩ :=
      addFrag_spec hashF hinj a ep f hinv
    obtain ⟨k1, k2, k3, ps, hps, hbound, hlook⟩ :=
      ih (addFrag hashF (a, ep) f).1 (addFrag hashF (a, ep) f).2 h1
    refine ⟨k1, by rw [k2, h2], h3.trans k3, p :: ps, ?_, ?_, ?_⟩
    · rw [hps, hp]
      simp
    · intro q hq
      rcases List.mem_cons.mp hq with hq1 | hq1
      · subst hq1
        exact ⟨hp1, le_trans hple k3.length_le⟩
      · exact hbound q hq1
    · rw [List.map_cons, hlook]
      have hst : (rest.foldl (addFrag hashF)
          (addFrag hashF (a, ep) f)).1.frags.getD (p - 1) []
          = (addFrag hashF (a, ep) f).1.frags.getD (p - 1) [] :=
        getD_prefix k3 (p - 1) (by omega)
      rw [hst, hplook]

/-- An index record correctly describes file `f` in archive `a`: right
name, date and attribute bytes, and its pointers reconstruct `f`'s
contents from the store. -/
def entryOK (a : Arch1) (f : FileM) (e : List ℕ × ℕ × List ℕ × List ℕ) :
    Prop :=
  e.1 = f.name ∧ e.2.1 = f.date ∧ e.2.2.1 = attrEncode f.attr ∧
  (∀ p ∈ e.2.2.2, 1 ≤ p ∧ p ≤ a.frags.length) ∧
  (e.2.2.2.map (fun p => a.frags.getD (p - 1) [])).flatten = f.content

theorem entryOK_mono (a b : Arch1) (f : FileM)
    (e : List ℕ × ℕ × List ℕ × List ℕ) (hpre : a.frags <+: b.frags)
    (h : entryOK a f e) : entryOK b f e := by
  obtain ⟨h1, h2, h3, h4, h5⟩ := h
  refine ⟨h1, h2, h3, ?_, ?_⟩
  · intro p hp
    have := h4 p hp
    exact ⟨this.1, le_trans this.2 hpre.length_le⟩
  · rw [← h5]
    congr 1
    apply List.map_congr_left
    intro p hp
    have hb := h4 p hp
    exact getD_prefix hpre (p - 1) (by omega)

theorem addFile_spec (hashF : List ℕ → List ℕ)
    (hinj : Function.Injective hashF) (a : Arch1) (f : FileM)
    (hinv : A1Inv hashF a) :
    A1Inv hashF (addFile hashF a f) ∧
    a.frags <+: (addFile hashF a f).frags ∧
    ∃ e, (addFile hashF a f).idx = a.idx ++ [e] ∧
      entryOK (addFile hashF a f) f e := by
  obtain ⟨h1, h2, h3, ps, hps, hbound, hlook⟩ :=
    addFrags_spec hashF hinj (chunkFile f.content) a [] hinv
  rw [List.nil_append] at hps
  have hF : addFile hashF a f
      = ⟨((chunkFile f.content).foldl (addFrag hashF) (a, [])).1.ht,
         ((chunkFile f.content).foldl (addFrag hashF) (a, [])).1.htinv,
         ((chunkFile f.content).foldl (addFrag hashF) (a, [])).1.frags,
         ((chunkFile f.content).foldl (addFrag hashF) (a, [])).1.idx
           ++ [(f.name, f.date, attrEncode f.attr,
                ((chunkFile f.content).foldl (addFrag hashF) (a, [])).2)]⟩ := by
    simp only [addFile]
  rw [hF]
  refine ⟨h1, h3, (f.name, f.date, attrEncode f.attr,
    ((chunkFile f.content).foldl (addFrag hashF) (a, [])).2), by rw [h2],
    rfl, rfl, rfl, ?_, ?_⟩
  · show ∀ p ∈ ((chunkFile f.content).foldl (addFrag hashF) (a, [])).2,
        1 ≤ p ∧ p ≤ ((chunkFile f.content).foldl (addFrag hashF)
          (a, [])).1.frags.length
    rw [hps]
    exact hbound
  · show ((((chunkFile f.content).foldl (addFrag hashF) (a, [])).2).map
        (fun p => ((chunkFile f.content).foldl (addFrag hashF)
          (a, [])).1.frags.getD (p - 1) [])).flatten = f.content
    rw [hps, hlook, chunkFile_join]

theorem addAll_go (hashF : List ℕ → List ℕ)
    (hinj : Function.Injective hashF) :
    ∀ (fs done : List FileM) (a : Arch1), A1Inv hashF a →
    List.Forall₂ (entryOK a) done a.idx →
    A1Inv hashF (fs.foldl (addFile hashF) a) ∧
    List.Forall₂ (entryOK (fs.foldl (addFile hashF) a)) (done ++ fs)
      (fs.foldl (addFile hashF) a).idx := by
  intro fs
  induction fs with
  | nil =>
    intro done a h1 h2
    simpa using ⟨h1, h2⟩
  | cons f rest ih =>
    intro done a h1 h2
    rw [List.foldl_cons]
    obtain ⟨k1, kpre, e, keq, kok⟩ := addFile_spec hashF hinj a f h1
    have h2' : List.Forall₂ (entryOK (addFile hashF a f)) (done ++ [f])
        (addFile hashF a f).idx := by
      rw [keq]
      refine List.rel_append ?_ ?_
      · exact List.Forall₂.imp
          (fun x y hxy => entryOK_mono a _ x y kpre hxy) h2
      · exact List.Forall₂.cons kok List.Forall₂.nil
    have h3 := ih (done ++ [f]) (addFile hashF a f) k1 h2'
    refine ⟨h3.1, ?_⟩
    have h4 := h3.2
    rwa [List.append_assoc, List.singleton_append] at h4

theorem arch0_inv (hashF : List ℕ → List ℕ) : A1Inv hashF arch0 := by
  refine ⟨rfl, by decide, ?_, ?_⟩
  · intro i hi
    simp [arch0] at hi
  · intro b i hmem
    rcases update_mem ⟨fun _ => [], 0⟩ [default] b i hmem with h1 | h1
    · simp at h1
    · exfalso
      have hlen1 : ([default] : List HT).length = 1 := rfl
      have hi1 := h1.2.1
      have hi0 : i = 0 := by omega
      subst hi0
      exact absurd h1.2.2 (by decide)

theorem map_dec_of_forall2 (a : Arch1) :
    ∀ (fs : List FileM) (es : List (List ℕ × ℕ × List ℕ × List ℕ)),
    List.Forall₂ (entryOK a) fs es → (∀ f ∈ fs, AttrOK f.attr) →
    es.map (fun e => (⟨e.1, e.2.1, attrDecode e.2.2.1,
      (e.2.2.2.map (fun p => a.frags.getD (p - 1) [])).flatten⟩ : FileM))
      = fs := by
  intro fs
  induction fs with
  | nil =>
    intro es h _
    cases h
    rfl
  | cons f rest ih =>
    intro es h hattr
    cases h with
    | cons hfe hrest =>
      rw [List.map_cons]
      obtain ⟨h1, h2, h3, h4, h5⟩ := hfe
      congr 1
      · rw [h1, h2, h3, h5, attr_roundtrip f.attr (hattr f (by simp))]
      · exact ih _ hrest (fun g hg => hattr g (by simp [hg]))

/-- **C1.** For every list of input files (every name, date, attribute
and byte content) and every method `m ∈ {0..6}`, extracting from the
archive created by adding them to an empty archive reproduces every file
byte-for-byte, with its date and its attributes: `extract ∘ add = id`.
SHA-1 is any injective digest (collision-freedom is what the dedup of
src/zpaq.cpp:4073-4145 relies on); the method only selects the libzpaq
block codec, which decompression inverts, so it does not appear in the
model; attributes are assumed losslessly encodable (`AttrOK`, true of
real unix/windows attributes). -/
theorem c1_roundtrip (hashF : List ℕ → List ℕ)
    (hinj : Function.Injective hashF) (files : List FileM)
    (hattr : ∀ f ∈ files, AttrOK f.attr) :
    extractAll (addAll hashF files) = files := by
  have h0 := addAll_go hashF hinj files [] arch0 (arch0_inv hashF)
    List.Forall₂.nil
  rw [List.nil_append] at h0
  exact map_dec_of_forall2 _ files _ h0.2 hattr

/-- Witness for `c1_roundtrip`: two files with identical contents and
distinct names, dates and attributes; extraction reproduces both, and the
store holds a single deduplicated fragment. -/
theorem c1_roundtrip_witness :
    extractAll (addAll id
      [⟨[65], 20250101120000, 117, [7, 8, 9]⟩,
       ⟨[66], 20250101120001, 0, [7, 8, 9]⟩])
      = [⟨[65], 20250101120000, 117, [7, 8, 9]⟩,
         ⟨[66], 20250101120001, 0, [7, 8, 9]⟩] ∧
    (addAll id
      [⟨[65], 20250101120000, 117, [7, 8, 9]⟩,
       ⟨[66], 20250101120001, 0, [7, 8, 9]⟩]).frags.length = 1 :=
  ⟨c1_roundtrip id Function.injective_id _ (by decide), by decide⟩


end Zpaq
